import Mathlib

/-!
Shallow embedding of the minesweeper game core (`model.js`) and proofs about it.

Modelling conventions:
- JS numbers that hold tile values or counters are modelled as `Int`;
  row/column coordinates, which are always nonnegative in the modelled
  executions, are modelled as `Nat`.
- The value returned by a JS callback or method is modelled by `JSVal`,
  distinguishing `undefined`, `null`, booleans, numbers and `Error` objects,
  because the iteration primitives test callback results against the literal
  boolean `false` (`ret === false`) and `revealUnknownAdjacent` tests
  `revealTile(...) == null` (loose equality, true for both `null` and
  `undefined`).
- The backing array `data_` is a dense `List Int`.  `getTile` out of the
  populated range returns a default value (JS would return `undefined`); all
  modelled executions only read populated indices except for the reads the
  source itself performs while a board is being filled, where both the JS
  value `undefined` and the default compare unequal to every tile constant,
  so the behaviour agrees.  `setTile` at an index equal to the current length
  appends (exactly how the construction loops densely grow the array);
  modelled executions never write past the end with a gap.
- `Board.shuffle` uses `Math.random`; every execution of the Fisher-Yates
  loop produces some permutation of `data_`, so construction of the solution
  board is modelled by quantifying over an arbitrary permutation
  (`SolutionConstructed`).
-/

namespace Minesweeper

/-- JS values that flow through callback returns and method returns in the
modelled code. -/
inductive JSVal : Type where
  | undef : JSVal
  | null : JSVal
  | boolean : Bool → JSVal
  | num : Int → JSVal
  | err : String → JSVal
deriving DecidableEq

/-- JS loose equality with `null` (`x == null`), true exactly for `null` and
`undefined`. -/
def JSVal.looseNull : JSVal → Bool
  | JSVal.null => true
  | JSVal.undef => true
  | _ => false

/-- `minesweeper.Tile.MINE`. -/
def Tile.MINE : Int := -1

/-- `minesweeper.Tile.UNKNOWN`. -/
def Tile.UNKNOWN : Int := -2

/-- `minesweeper.Tile.FLAG`. -/
def Tile.FLAG : Int := -3

/-- `minesweeper.Board`: row/column counts plus the dense row-major backing
array `data_`. -/
structure Board where
  rowCount : Nat
  colCount : Nat
  data_ : List Int
deriving DecidableEq

/-- `Board.prototype.getIndex_`. -/
def Board.getIndex_ (b : Board) (row col : Nat) : Nat :=
  row * b.colCount + col

/-- `Board.prototype.getTile`.  Reads outside the populated range return a
default (the JS code would yield `undefined`; such reads are only compared
against tile constants, where both disagree alike). -/
def Board.getTile (b : Board) (row col : Nat) : Int :=
  b.data_.getD (b.getIndex_ row col) 0

/-- `Board.prototype.setTile`.  A write at the current end of the array
appends, matching how the JS construction loops densely extend `data_`;
writes past the end with a gap never occur in the modelled executions and
are modelled as a no-op. -/
def Board.setTile (b : Board) (row col : Nat) (tile : Int) : Board :=
  let i := b.getIndex_ row col
  if i < b.data_.length then { b with data_ := b.data_.set i tile }
  else if i = b.data_.length then { b with data_ := b.data_ ++ [tile] }
  else b

/-- The row-major list of cell coordinates visited by `forEachTile`. -/
def rowMajor (R C : Nat) : List (Nat × Nat) :=
  (List.range R).flatMap (fun r => (List.range C).map (fun c => (r, c)))

/-- The list of cell coordinates visited by `forEachBoundaryTile`: the 3×3
neighbourhood of `(row, col)` clipped to the board and with the centre
removed.  `row - 1` is natural subtraction, matching `Math.max(row - 1, 0)`. -/
def boundaryCells (R C row col : Nat) : List (Nat × Nat) :=
  ((List.range' (row - 1) (min (row + 2) R - (row - 1))).flatMap (fun r =>
      (List.range' (col - 1) (min (col + 2) C - (col - 1))).map (fun c => (r, c)))).filter
    (fun q => decide (q ≠ (row, col)))

/-- The shared iteration core of `forEachTile` / `forEachBoundaryTile`: visit
the listed cells in order, passing the current tile value (read from the live
board designated by `get`) to the callback, stopping with result `false`
exactly when a callback invocation returns the literal boolean `false`
(`ret === false`). -/
def forEachOn {σ : Type} (get : σ → Board) (cb : σ → Nat → Nat → Int → σ × JSVal) :
    List (Nat × Nat) → σ → σ × Bool
  | [], s => (s, true)
  | (r, c) :: ps, s =>
    let res := cb s r c ((get s).getTile r c)
    if res.2 = JSVal.boolean false then (res.1, false)
    else forEachOn get cb ps res.1

/-- `Board.prototype.forEachTile`, iterating over the board designated by
`get` within the callback state `σ` (the JS `scope` object together with any
captured mutable locals). -/
def Board.forEachTile {σ : Type} (get : σ → Board) (cb : σ → Nat → Nat → Int → σ × JSVal)
    (s : σ) : σ × Bool :=
  forEachOn get cb (rowMajor (get s).rowCount (get s).colCount) s

/-- `Board.prototype.forEachBoundaryTile`. -/
def Board.forEachBoundaryTile {σ : Type} (get : σ → Board) (row col : Nat)
    (cb : σ → Nat → Nat → Int → σ × JSVal) (s : σ) : σ × Bool :=
  forEachOn get cb (boundaryCells (get s).rowCount (get s).colCount row col) s

/-- `minesweeper.UserBoard`: a board plus the two derived counters. -/
structure UserBoard where
  board : Board
  flagCount : Int
  unknownCount : Int
deriving DecidableEq

def UserBoard.getTile (u : UserBoard) (row col : Nat) : Int :=
  u.board.getTile row col

/-- `UserBoard.prototype.setTile`: decrement the counter matching the old
value, write through the base `setTile`, then increment the counter matching
the value now read back. -/
def UserBoard.setTile (u : UserBoard) (row col : Nat) (tile : Int) : UserBoard :=
  let dec : UserBoard :=
    if u.getTile row col = Tile.FLAG then { u with flagCount := u.flagCount - 1 }
    else if u.getTile row col = Tile.UNKNOWN then { u with unknownCount := u.unknownCount - 1 }
    else u
  let mid : UserBoard := { dec with board := dec.board.setTile row col tile }
  if mid.getTile row col = Tile.FLAG then { mid with flagCount := mid.flagCount + 1 }
  else if mid.getTile row col = Tile.UNKNOWN then { mid with unknownCount := mid.unknownCount + 1 }
  else mid

/-- `UserBoard.prototype.initBoard_`: set every tile to `UNKNOWN`. -/
def UserBoard.initBoard_ (u : UserBoard) : UserBoard :=
  (Board.forEachTile (fun x : UserBoard => x.board)
    (fun x r c _t => (x.setTile r c Tile.UNKNOWN, JSVal.undef)) u).1

/-- The `UserBoard` constructor: empty backing array, zero counters, then
`initBoard_`. -/
def UserBoard.construct (rows cols : Nat) : UserBoard :=
  UserBoard.initBoard_ { board := { rowCount := rows, colCount := cols, data_ := [] },
                         flagCount := 0, unknownCount := 0 }

/-- `UserBoard.prototype.completed`. -/
def UserBoard.completed (u : UserBoard) : Bool :=
  u.unknownCount = 0

/-- `minesweeper.MineBoard`: a board plus the requested mine total. -/
structure MineBoard where
  board : Board
  mineCount : Int
deriving DecidableEq

def MineBoard.getTile (m : MineBoard) (row col : Nat) : Int :=
  m.board.getTile row col

/-- The clearing loop at the start of `MineBoard.prototype.setMines_`: walk
every cell; while the captured counter is positive, place a `MINE` and
decrement, otherwise place `0`. -/
def MineBoard.clearFold (rows cols : Nat) (mines : Int) : Board × Int :=
  (Board.forEachTile (fun s : Board × Int => s.1)
    (fun s r c _t =>
      if s.2 > 0 then ((s.1.setTile r c Tile.MINE, s.2 - 1), JSVal.undef)
      else ((s.1.setTile r c 0, s.2), JSVal.undef))
    ({ rowCount := rows, colCount := cols, data_ := [] }, mines)).1

/-- `MineBoard.prototype.incrementAdjacentTiles_`: add one to every
neighbouring tile whose value does not indicate a special cell. -/
def Board.incrementAdjacentTiles_ (b : Board) (row col : Nat) : Board :=
  (Board.forEachBoundaryTile (fun x : Board => x) row col
    (fun x r c tile =>
      if tile ≥ 0 then (x.setTile r c (tile + 1), JSVal.undef) else (x, JSVal.undef))
    b).1

/-- The adjacency pass at the end of `MineBoard.prototype.setMines_`: for
every tile currently holding `MINE`, increment its neighbours. -/
def MineBoard.adjacencyPass (b : Board) : Board :=
  (Board.forEachTile (fun x : Board => x)
    (fun x r c tile =>
      if tile = Tile.MINE then (x.incrementAdjacentTiles_ r c, JSVal.undef)
      else (x, JSVal.undef))
    b).1

/-- The `MineBoard` constructor (`setMines_` inlined): every run clears the
board placing the first `mines` tiles as mines, shuffles `data_` into some
permutation of itself (Fisher-Yates driven by `Math.random`), then runs the
adjacency pass.  The relation holds of exactly the boards some execution can
produce. -/
def SolutionConstructed (mines : Int) (rows cols : Nat) (M : MineBoard) : Prop :=
  ∃ d : List Int, d.Perm (MineBoard.clearFold rows cols mines).1.data_ ∧
    M = { board := MineBoard.adjacencyPass { rowCount := rows, colCount := cols, data_ := d },
          mineCount := mines }

/-- `minesweeper.Game`. -/
structure Game where
  mineBoard : MineBoard
  userBoard : UserBoard
deriving DecidableEq

/-- `Game.prototype.revealTile`, with explicit recursion fuel.  The recursion
of the source terminates because each recursive level first turns an
`UNKNOWN`/`FLAG` tile into a revealed one; `Game.revealTile` below supplies
fuel exceeding the total cell count, which is proved sufficient. -/
def Game.revealTileF : Nat → Game → Nat → Nat → Game × JSVal
  | 0, g, _, _ => (g, JSVal.undef)
  | Nat.succ fuel, g, row, col =>
    let userTile := g.userBoard.getTile row col
    if userTile ≠ Tile.UNKNOWN ∧ userTile ≠ Tile.FLAG then (g, JSVal.undef)
    else
      let mineTile := g.mineBoard.getTile row col
      let g1 : Game := { g with userBoard := g.userBoard.setTile row col mineTile }
      if mineTile = Tile.MINE then (g1, JSVal.err "mine revealed")
      else if mineTile = 0 then
        ((Board.forEachBoundaryTile (fun gg : Game => gg.mineBoard.board) row col
            (fun gg r c _t => Game.revealTileF fuel gg r c) g1).1, JSVal.null)
      else (g1, JSVal.null)

/-- `Game.prototype.revealTile` with sufficient fuel. -/
def Game.revealTile (g : Game) (row col : Nat) : Game × JSVal :=
  Game.revealTileF (g.mineBoard.board.rowCount * g.mineBoard.board.colCount + 1) g row col

/-- `Game.prototype.revealUnknownAdjacent`. -/
def Game.revealUnknownAdjacent (g : Game) (row col : Nat) : Game × JSVal :=
  let tile := g.userBoard.getTile row col
  if tile < 0 then (g, JSVal.null)
  else
    let adjacentFlags : Int :=
      (Board.forEachBoundaryTile (fun _ : Int => g.userBoard.board) row col
        (fun n _r _c t => if t = Tile.FLAG then (n + 1, JSVal.undef) else (n, JSVal.undef))
        0).1
    if tile > adjacentFlags then (g, JSVal.null)
    else
      let res := Board.forEachBoundaryTile (fun gg : Game => gg.userBoard.board) row col
        (fun gg r c userTile =>
          if userTile = Tile.UNKNOWN then
            let rv := gg.revealTile r c
            (rv.1, JSVal.boolean rv.2.looseNull)
          else (gg, JSVal.undef))
        g
      if res.2 then (res.1, JSVal.null)
      else (res.1, JSVal.err "adajcent mine revealed")

/-- `Game.prototype.flagTile`. -/
def Game.flagTile (g : Game) (row col : Nat) : Game :=
  if g.userBoard.getTile row col = Tile.UNKNOWN then
    { g with userBoard := g.userBoard.setTile row col Tile.FLAG }
  else if g.userBoard.getTile row col = Tile.FLAG then
    { g with userBoard := g.userBoard.setTile row col Tile.UNKNOWN }
  else g

/-- `Game.prototype.validate`. -/
def Game.validate (g : Game) : Bool :=
  if g.userBoard.flagCount ≠ g.mineBoard.mineCount then false
  else
    (Board.forEachTile (fun _ : Unit => g.mineBoard.board)
      (fun _ r c mineTile =>
        if mineTile = Tile.MINE ∨ g.userBoard.getTile r c = Tile.FLAG then
          ((), JSVal.boolean (decide (mineTile = Tile.MINE ∧ g.userBoard.getTile r c = Tile.FLAG)))
        else ((), JSVal.undef))
      ()).2

/-- The `Game` constructor: a square mine board of the given size together
with a fresh user board. -/
def GameConstructed (mines : Int) (size : Nat) (g : Game) : Prop :=
  SolutionConstructed mines size size g.mineBoard ∧
    g.userBoard = UserBoard.construct size size

/-- A board is well formed when its backing array is fully populated: one
entry per cell. -/
def Board.WF (b : Board) : Prop :=
  b.data_.length = b.rowCount * b.colCount

/-- The number of cells of a board currently holding `MINE`. -/
def mineCells (b : Board) : Nat :=
  List.countP (fun p => decide (b.getTile p.1 p.2 = Tile.MINE)) (rowMajor b.rowCount b.colCount)

/-- The number of cells of a user board currently holding `FLAG`. -/
def flagCells (u : UserBoard) : Nat :=
  List.countP (fun p => decide (u.getTile p.1 p.2 = Tile.FLAG))
    (rowMajor u.board.rowCount u.board.colCount)

/-- The number of cells of a user board currently holding `UNKNOWN`. -/
def unknownCells (u : UserBoard) : Nat :=
  List.countP (fun p => decide (u.getTile p.1 p.2 = Tile.UNKNOWN))
    (rowMajor u.board.rowCount u.board.colCount)

/-- The number of revealed cells of a user board: cells holding neither
`FLAG` nor `UNKNOWN`. -/
def revealedCells (u : UserBoard) : Nat :=
  List.countP
    (fun p => decide (u.getTile p.1 p.2 ≠ Tile.FLAG ∧ u.getTile p.1 p.2 ≠ Tile.UNKNOWN))
    (rowMajor u.board.rowCount u.board.colCount)

/-- The counter invariant of `UserBoard`: both maintained counters agree with
the actual cell contents. -/
def CounterInv (u : UserBoard) : Prop :=
  u.flagCount = (flagCells u : Int) ∧ u.unknownCount = (unknownCells u : Int)

/-- A sequence of `setTile` writes applied in order to a user board. -/
def UserBoard.applyWrites (u : UserBoard) (ws : List (Nat × Nat × Int)) : UserBoard :=
  ws.foldl (fun x w => x.setTile w.1 w.2.1 w.2.2) u

/-- A cell is unrevealed on a board when it holds `UNKNOWN` or `FLAG` (the
states in which `revealTile` acts). -/
def Unrev (b : Board) (p : Nat × Nat) : Prop :=
  b.getTile p.1 p.2 = Tile.UNKNOWN ∨ b.getTile p.1 p.2 = Tile.FLAG

instance (b : Board) (p : Nat × Nat) : Decidable (Unrev b p) :=
  inferInstanceAs (Decidable (_ ∨ _))

/-- The number of unrevealed cells of a board (within the given dimensions). -/
def unrevCount (b : Board) (R C : Nat) : Nat :=
  List.countP (fun p => decide (Unrev b p)) (rowMajor R C)

/-- Two distinct cells at Chebyshev distance at most 1: the neighbour
relation of the game. -/
def adjacent (p q : Nat × Nat) : Prop :=
  p ≠ q ∧ p.1 - q.1 ≤ 1 ∧ q.1 - p.1 ≤ 1 ∧ p.2 - q.2 ≤ 1 ∧ q.2 - p.2 ≤ 1

/-- The number of in-bounds neighbours of `(row, col)` holding `MINE`. -/
def adjacentMines (b : Board) (row col : Nat) : Nat :=
  List.countP (fun y => decide (b.getTile y.1 y.2 = Tile.MINE))
    (boundaryCells b.rowCount b.colCount row col)

/-- The adjacency invariant of a solution board: every non-mine cell stores
the exact count of its in-bounds neighbours holding `MINE`. -/
def AdjacencyInv (b : Board) : Prop :=
  ∀ r c, r < b.rowCount → c < b.colCount → b.getTile r c ≠ Tile.MINE →
    b.getTile r c = (adjacentMines b r c : Int)

/-- Cells reachable by the reveal cascade on mine board `M` from `p`, with the
user board fixed at `u`: `p` itself if unrevealed, extended stepwise through
unrevealed cells whose solution value is `0` into their (in-bounds) boundary
cells that are unrevealed. -/
inductive ReachU (M u : Board) (R C : Nat) (p : Nat × Nat) : Nat × Nat → Prop where
  | refl : Unrev u p → ReachU M u R C p p
  | step {q q' : Nat × Nat} : ReachU M u R C p q → M.getTile q.1 q.2 = 0 →
      q' ∈ boundaryCells R C q.1 q.2 → Unrev u q' → ReachU M u R C p q'

/-- The maximal connected region of `0`-valued solution cells containing `p`:
`p` itself (required to be a `0` cell) and closure under adjacency into
in-bounds `0` cells. -/
inductive ZeroRegion (M : Board) (p : Nat × Nat) : Nat × Nat → Prop where
  | refl : M.getTile p.1 p.2 = 0 → ZeroRegion M p p
  | step {q q' : Nat × Nat} : ZeroRegion M p q → adjacent q q' →
      q'.1 < M.rowCount → q'.2 < M.colCount → M.getTile q'.1 q'.2 = 0 → ZeroRegion M p q'

/-- The one-cell ring bordering the zero region of `p`: in-bounds cells not
in the region but adjacent to some region cell. -/
def ZeroRing (M : Board) (p q : Nat × Nat) : Prop :=
  ¬ ZeroRegion M p q ∧ q.1 < M.rowCount ∧ q.2 < M.colCount ∧
    ∃ z, ZeroRegion M p z ∧ adjacent z q

/-- Occurrence count of one cell in a cell list (stated via `countP` to stay
independent of `BEq` instances on pairs). -/
def cellCount (p : Nat × Nat) (l : List (Nat × Nat)) : Nat :=
  l.countP (fun x => decide (x = p))

/-- The values held by the board after the clearing loop: cell `k` is `MINE`
exactly while the running counter is still positive there. -/
def clearData (mines : Int) (total : Nat) : List Int :=
  (List.range total).map (fun (k : Nat) => if (k : Int) < mines then Tile.MINE else 0)

/-- Bundled well-formedness of a game: both boards share the dimensions
`R × C` and are fully populated. -/
def GoodGame (g : Game) (R C : Nat) : Prop :=
  g.mineBoard.board.rowCount = R ∧ g.mineBoard.board.colCount = C ∧ g.mineBoard.board.WF ∧
  g.userBoard.board.rowCount = R ∧ g.userBoard.board.colCount = C ∧ g.userBoard.board.WF

/-- What one `revealTile` call does to the game state: the mine board is
untouched, well-formedness is preserved, and a cell of the player board now
shows its solution value exactly if the cascade reaches it, otherwise its
old value. -/
def RevealSpec (R C : Nat) (g : Game) (row col : Nat) (res : Game) : Prop :=
  res.mineBoard = g.mineBoard ∧ GoodGame res R C ∧
  ∀ q : Nat × Nat, q.1 < R → q.2 < C →
    (ReachU g.mineBoard.board g.userBoard.board R C (row, col) q →
      res.userBoard.board.getTile q.1 q.2 = g.mineBoard.board.getTile q.1 q.2) ∧
    (¬ ReachU g.mineBoard.board g.userBoard.board R C (row, col) q →
      res.userBoard.board.getTile q.1 q.2 = g.userBoard.board.getTile q.1 q.2)

/-- What the neighbourhood fold of the cascade does: the union of the reach
sets of the listed cells is revealed, everything else untouched. -/
def CascadeSpec (R C : Nat) (g : Game) (ns : List (Nat × Nat)) (res : Game) : Prop :=
  res.mineBoard = g.mineBoard ∧ GoodGame res R C ∧
  ∀ q : Nat × Nat, q.1 < R → q.2 < C →
    ((∃ x ∈ ns, ReachU g.mineBoard.board g.userBoard.board R C x q) →
      res.userBoard.board.getTile q.1 q.2 = g.mineBoard.board.getTile q.1 q.2) ∧
    ((¬ ∃ x ∈ ns, ReachU g.mineBoard.board g.userBoard.board R C x q) →
      res.userBoard.board.getTile q.1 q.2 = g.userBoard.board.getTile q.1 q.2)

/-- The number of in-bounds neighbours of `(row, col)` whose player-board
value is `FLAG` (what the `adjacentFlags` loop of `revealUnknownAdjacent`
counts). -/
def flaggedNeighbors (b : Board) (row col : Nat) : Nat :=
  List.countP (fun q => decide (b.getTile q.1 q.2 = Tile.FLAG))
    (boundaryCells b.rowCount b.colCount row col)

/-- A specification-level rendering of the chord loop of
`revealUnknownAdjacent` (spec §4.4): walk the neighbours in row-major order;
invoke `revealTile` on every neighbour currently `UNKNOWN`; a reveal that
hits a mine stops the walk immediately with failure (`false`), keeping the
reveals already performed; otherwise continue, and report success (`true`)
when the walk completes. -/
def chordSpec : Game → List (Nat × Nat) → Game × Bool
  | g, [] => (g, true)
  | g, q :: ps =>
    if g.userBoard.getTile q.1 q.2 = Tile.UNKNOWN then
      if g.mineBoard.getTile q.1 q.2 = Tile.MINE then ((g.revealTile q.1 q.2).1, false)
      else chordSpec (g.revealTile q.1 q.2).1 ps
    else chordSpec g ps

/-! ### Coordinate lists -/

theorem mem_rowMajor {R C : Nat} {p : Nat × Nat} :
    p ∈ rowMajor R C ↔ p.1 < R ∧ p.2 < C := by
  obtain ⟨a, b⟩ := p
  constructor
  · intro h
    rcases List.mem_flatMap.mp h with ⟨r', hr', hm⟩
    rcases List.mem_map.mp hm with ⟨c', hc', he⟩
    cases he
    exact ⟨List.mem_range.mp hr', List.mem_range.mp hc'⟩
  · rintro ⟨h1, h2⟩
    exact List.mem_flatMap.mpr
      ⟨a, List.mem_range.mpr h1, List.mem_map.mpr ⟨b, List.mem_range.mpr h2, rfl⟩⟩

theorem mem_boundaryCells {R C row col : Nat} {q : Nat × Nat} :
    q ∈ boundaryCells R C row col ↔
      q ≠ (row, col) ∧ q.1 < R ∧ q.2 < C ∧
        row - q.1 ≤ 1 ∧ q.1 - row ≤ 1 ∧ col - q.2 ≤ 1 ∧ q.2 - col ≤ 1 := by
  obtain ⟨a, b⟩ := q
  constructor
  · intro h
    rcases List.mem_filter.mp h with ⟨hm, hne⟩
    rcases List.mem_flatMap.mp hm with ⟨r', hr', hmm⟩
    rcases List.mem_map.mp hmm with ⟨c', hc', he⟩
    cases he
    have h1 := List.mem_range'_1.mp hr'
    have h2 := List.mem_range'_1.mp hc'
    refine ⟨of_decide_eq_true hne, ?_, ?_, ?_, ?_, ?_, ?_⟩ <;> omega
  · rintro ⟨hne, h1, h2, h3, h4, h5, h6⟩
    refine List.mem_filter.mpr ⟨?_, decide_eq_true hne⟩
    refine List.mem_flatMap.mpr
      ⟨a, List.mem_range'_1.mpr ⟨?_, ?_⟩,
        List.mem_map.mpr ⟨b, List.mem_range'_1.mpr ⟨?_, ?_⟩, rfl⟩⟩ <;> omega

theorem mem_boundaryCells_iff_adjacent {R C row col : Nat} {q : Nat × Nat} :
    q ∈ boundaryCells R C row col ↔ q.1 < R ∧ q.2 < C ∧ adjacent (row, col) q := by
  rw [mem_boundaryCells]
  unfold adjacent
  constructor
  · rintro ⟨hne, h1, h2, h3, h4, h5, h6⟩
    exact ⟨h1, h2, fun he => hne he.symm, h3, h4, h5, h6⟩
  · rintro ⟨h1, h2, hne, h3, h4, h5, h6⟩
    exact ⟨fun he => hne he.symm, h1, h2, h3, h4, h5, h6⟩

theorem boundaryCells_inRange {R C row col : Nat} {q : Nat × Nat}
    (h : q ∈ boundaryCells R C row col) : q.1 < R ∧ q.2 < C := by
  have hh := mem_boundaryCells.mp h
  exact ⟨hh.2.1, hh.2.2.1⟩

theorem mem_boundaryCells_symm {R C : Nat} {p q : Nat × Nat} (hp1 : p.1 < R) (hp2 : p.2 < C)
    (h : q ∈ boundaryCells R C p.1 p.2) : p ∈ boundaryCells R C q.1 q.2 := by
  have hh := mem_boundaryCells.mp h
  apply mem_boundaryCells.mpr
  obtain ⟨a, b⟩ := p
  obtain ⟨x, y⟩ := q
  refine ⟨?_, hp1, hp2, ?_, ?_, ?_, ?_⟩
  · intro he
    exact hh.1 he.symm
  all_goals
    simp only at hh ⊢
    omega

theorem nodup_pairRows {l : List Nat} {f : Nat → List Nat} (hl : l.Nodup)
    (hf : ∀ r, (f r).Nodup) :
    (l.flatMap (fun r => (f r).map (fun c => (r, c)))).Nodup := by
  rw [List.nodup_flatMap]
  constructor
  · intro r _
    exact (hf r).map (fun c c' h => (Prod.mk.injEq r c r c' ▸ h).2)
  · refine hl.imp ?_
    intro r r' hne x hx hx'
    rcases List.mem_map.mp hx with ⟨c, _, rfl⟩
    rcases List.mem_map.mp hx' with ⟨c', _, he⟩
    exact hne (Prod.mk.injEq r' c' r c ▸ he).1.symm

theorem rowMajor_nodup (R C : Nat) : (rowMajor R C).Nodup :=
  nodup_pairRows (List.nodup_range R) (fun _ => List.nodup_range C)

theorem boundaryCells_nodup (R C row col : Nat) : (boundaryCells R C row col).Nodup :=
  List.Nodup.filter _ (nodup_pairRows (List.nodup_range' _ _) (fun _ => List.nodup_range' _ _))

theorem cellCount_eq_zero {p : Nat × Nat} {l : List (Nat × Nat)} (h : p ∉ l) :
    cellCount p l = 0 := by
  apply List.countP_eq_zero.mpr
  intro x hx
  simp only [decide_eq_true_eq]
  intro he
  exact h (he ▸ hx)

theorem cellCount_cons {p x : Nat × Nat} {l : List (Nat × Nat)} :
    cellCount p (x :: l) = cellCount p l + (if x = p then 1 else 0) := by
  unfold cellCount
  rw [List.countP_cons]
  by_cases h : x = p <;> simp [h]

theorem cellCount_eq_one {p : Nat × Nat} {l : List (Nat × Nat)} (hn : l.Nodup) (hm : p ∈ l) :
    cellCount p l = 1 := by
  induction l with
  | nil => cases hm
  | cons a t ih =>
    rcases List.nodup_cons.mp hn with ⟨hat, hnt⟩
    rw [cellCount_cons]
    rcases List.mem_cons.mp hm with he | hmt
    · rw [cellCount_eq_zero (by rw [he]; exact hat), if_pos he.symm]
    · rw [ih hnt hmt, if_neg (fun he => hat (by rw [he]; exact hmt))]

theorem count_rowMajor {R C : Nat} {p : Nat × Nat} (h1 : p.1 < R) (h2 : p.2 < C) :
    cellCount p (rowMajor R C) = 1 :=
  cellCount_eq_one (rowMajor_nodup R C) (mem_rowMajor.mpr ⟨h1, h2⟩)

theorem count_boundaryCells_of_mem {R C row col : Nat} {q : Nat × Nat}
    (h : q ∈ boundaryCells R C row col) :
    cellCount q (boundaryCells R C row col) = 1 :=
  cellCount_eq_one (boundaryCells_nodup R C row col) h

theorem count_boundaryCells_of_not_mem {R C row col : Nat} {q : Nat × Nat}
    (h : q ∉ boundaryCells R C row col) :
    cellCount q (boundaryCells R C row col) = 0 :=
  cellCount_eq_zero h

theorem rowMajor_map_getIndex (R C : Nat) :
    (rowMajor R C).map (fun p => p.1 * C + p.2) = List.range (R * C) := by
  induction R with
  | zero => simp [rowMajor, Nat.zero_mul]
  | succ n ih =>
    have h1 : rowMajor (n + 1) C =
        rowMajor n C ++ (List.range C).map (fun c => (n, c)) := by
      unfold rowMajor
      rw [List.range_succ, List.flatMap_append]
      simp
    rw [h1, List.map_append, ih, List.map_map]
    have h2 : (n + 1) * C = n * C + C := by ring
    rw [h2, List.range_add]
    rfl

theorem rowMajor_length (R C : Nat) : (rowMajor R C).length = R * C := by
  have := congrArg List.length (rowMajor_map_getIndex R C)
  simpa using this

/-! ### Board access -/

theorem Board.getIndex_lt {b : Board} {row col : Nat} (hr : row < b.rowCount)
    (hc : col < b.colCount) : b.getIndex_ row col < b.rowCount * b.colCount := by
  unfold Board.getIndex_
  calc row * b.colCount + col < row * b.colCount + b.colCount := by omega
    _ = (row + 1) * b.colCount := by ring
    _ ≤ b.rowCount * b.colCount := Nat.mul_le_mul_right _ hr

theorem Board.getIndex_inj {b : Board} {r1 c1 r2 c2 : Nat} (h1 : c1 < b.colCount)
    (h2 : c2 < b.colCount) (he : b.getIndex_ r1 c1 = b.getIndex_ r2 c2) :
    r1 = r2 ∧ c1 = c2 := by
  unfold Board.getIndex_ at he
  have key : ∀ x1 y1 x2 y2 : Nat, y1 < b.colCount → x1 < x2 →
      x1 * b.colCount + y1 < x2 * b.colCount + y2 := by
    intro x1 y1 x2 y2 hy hx
    calc x1 * b.colCount + y1 < x1 * b.colCount + b.colCount := by omega
      _ = (x1 + 1) * b.colCount := by ring
      _ ≤ x2 * b.colCount := Nat.mul_le_mul_right _ hx
      _ ≤ x2 * b.colCount + y2 := by omega
  have hr : r1 = r2 := by
    rcases Nat.lt_trichotomy r1 r2 with h | h | h
    · exact absurd he (Nat.ne_of_lt (key r1 c1 r2 c2 h1 h))
    · exact h
    · exact absurd he.symm (Nat.ne_of_lt (key r2 c2 r1 c1 h2 h))
  subst hr
  exact ⟨rfl, by omega⟩

theorem Board.setTile_eq_set {b : Board} {row col : Nat} {t : Int}
    (h : b.getIndex_ row col < b.data_.length) :
    b.setTile row col t = { b with data_ := b.data_.set (b.getIndex_ row col) t } := by
  unfold Board.setTile
  simp only [h, if_pos]

theorem Board.setTile_eq_append {b : Board} {row col : Nat} {t : Int}
    (h : b.getIndex_ row col = b.data_.length) :
    b.setTile row col t = { b with data_ := b.data_ ++ [t] } := by
  unfold Board.setTile
  dsimp only
  rw [if_neg (by omega), if_pos h]

theorem Board.setTile_rowCount (b : Board) (row col : Nat) (t : Int) :
    (b.setTile row col t).rowCount = b.rowCount := by
  unfold Board.setTile
  dsimp only
  split
  · rfl
  · split <;> rfl

theorem Board.setTile_colCount (b : Board) (row col : Nat) (t : Int) :
    (b.setTile row col t).colCount = b.colCount := by
  unfold Board.setTile
  dsimp only
  split
  · rfl
  · split <;> rfl

theorem Board.setTile_length {b : Board} {row col : Nat} {t : Int}
    (h : b.getIndex_ row col < b.data_.length) :
    (b.setTile row col t).data_.length = b.data_.length := by
  rw [Board.setTile_eq_set h]
  simp

theorem Board.getTile_setTile_self {b : Board} {row col : Nat} {t : Int}
    (h : b.getIndex_ row col < b.data_.length) :
    (b.setTile row col t).getTile row col = t := by
  rw [Board.setTile_eq_set h]
  show (b.data_.set (b.getIndex_ row col) t).getD (b.getIndex_ row col) 0 = t
  have hl : b.getIndex_ row col < (b.data_.set (b.getIndex_ row col) t).length := by
    simpa using h
  rw [List.getD_eq_getElem _ _ hl, List.getElem_set_self]

theorem Board.getTile_setTile_ne {b : Board} {row col r' c' : Nat} {t : Int}
    (h : b.getIndex_ r' c' ≠ b.getIndex_ row col) :
    (b.setTile row col t).getTile r' c' = b.getTile r' c' := by
  unfold Board.setTile
  dsimp only
  split
  · show (b.data_.set (b.getIndex_ row col) t).getD (b.getIndex_ r' c') 0 =
      b.data_.getD (b.getIndex_ r' c') 0
    by_cases hj : b.getIndex_ r' c' < b.data_.length
    · have hj' : b.getIndex_ r' c' < (b.data_.set (b.getIndex_ row col) t).length := by
        simpa using hj
      rw [List.getD_eq_getElem _ _ hj', List.getD_eq_getElem _ _ hj,
        List.getElem_set_ne (fun he => h he.symm)]
    · rw [List.getD_eq_default _ _ (by simpa using Nat.le_of_not_lt hj),
        List.getD_eq_default _ _ (Nat.le_of_not_lt hj)]
  · split
    · show (b.data_ ++ [t]).getD (b.getIndex_ r' c') 0 = b.data_.getD (b.getIndex_ r' c') 0
      rename_i hlt he
      by_cases hj : b.getIndex_ r' c' < b.data_.length
      · rw [List.getD_append _ _ _ _ hj]
      · have hj2 : b.data_.length < b.getIndex_ r' c' := by omega
        rw [List.getD_eq_default _ _ (Nat.le_of_not_lt hj),
          List.getD_eq_default _ _ (by simp; omega)]
    · rfl

/-- In-range cells with distinct coordinates have distinct data indices. -/
theorem Board.getIndex_ne {b : Board} {row col r' c' : Nat} (hc : col < b.colCount)
    (hc' : c' < b.colCount) (hne : (r', c') ≠ (row, col)) :
    b.getIndex_ r' c' ≠ b.getIndex_ row col := by
  intro he
  rcases Board.getIndex_inj hc' hc he with ⟨h1, h2⟩
  exact hne (by rw [h1, h2])

/-! ### Generic iteration lemmas -/

theorem forEachOn_nil {σ : Type} (get : σ → Board) (cb : σ → Nat → Nat → Int → σ × JSVal)
    (s : σ) : forEachOn get cb [] s = (s, true) := rfl

theorem forEachOn_cons {σ : Type} (get : σ → Board) (cb : σ → Nat → Nat → Int → σ × JSVal)
    (r c : Nat) (ps : List (Nat × Nat)) (s : σ) :
    forEachOn get cb ((r, c) :: ps) s =
      (if (cb s r c ((get s).getTile r c)).2 = JSVal.boolean false
        then ((cb s r c ((get s).getTile r c)).1, false)
        else forEachOn get cb ps (cb s r c ((get s).getTile r c)).1) := rfl

/-- When no callback invocation can return the literal `false`, the iteration
visits every listed cell in order and returns `true`. -/
theorem forEachOn_all {σ : Type} (get : σ → Board) (cb : σ → Nat → Nat → Int → σ × JSVal)
    (h : ∀ s r c t, (cb s r c t).2 ≠ JSVal.boolean false) :
    ∀ (ps : List (Nat × Nat)) (s : σ),
      forEachOn get cb ps s =
        (ps.foldl (fun x p => (cb x p.1 p.2 ((get x).getTile p.1 p.2)).1) s, true) := by
  intro ps
  induction ps with
  | nil => intro s; rfl
  | cons p t ih =>
    intro s
    obtain ⟨r, c⟩ := p
    rw [forEachOn_cons, if_neg (h s r c _), ih]
    rfl

/-- The iteration result is `false` only if some callback invocation returned
the literal `false`. -/
theorem forEachOn_false_exists {σ : Type} (get : σ → Board)
    (cb : σ → Nat → Nat → Int → σ × JSVal) :
    ∀ (ps : List (Nat × Nat)) (s : σ),
      (forEachOn get cb ps s).2 = false →
        ∃ s' r c t, (cb s' r c t).2 = JSVal.boolean false := by
  intro ps
  induction ps with
  | nil =>
    intro s h
    simp [forEachOn_nil] at h
  | cons p t ih =>
    intro s h
    obtain ⟨r, c⟩ := p
    rw [forEachOn_cons] at h
    by_cases hc : (cb s r c ((get s).getTile r c)).2 = JSVal.boolean false
    · exact ⟨s, r, c, _, hc⟩
    · rw [if_neg hc] at h
      exact ih _ h

/-- Invariant preservation through the iteration. -/
theorem forEachOn_inv {σ : Type} (get : σ → Board) (cb : σ → Nat → Nat → Int → σ × JSVal)
    (P : σ → Prop) (h : ∀ s r c t, P s → P (cb s r c t).1) :
    ∀ (ps : List (Nat × Nat)) (s : σ), P s → P (forEachOn get cb ps s).1 := by
  intro ps
  induction ps with
  | nil => intro s hs; exact hs
  | cons p t ih =>
    intro s hs
    obtain ⟨r, c⟩ := p
    rw [forEachOn_cons]
    by_cases hc : (cb s r c ((get s).getTile r c)).2 = JSVal.boolean false
    · rw [if_pos hc]
      exact h s r c _ hs
    · rw [if_neg hc]
      exact ih _ (h s r c _ hs)

/-- For a state-free callback, the iteration returns `true` exactly when no
visited cell makes the callback return the literal `false`. -/
theorem forEachOn_unit_true_iff (get : Unit → Board)
    (cb : Unit → Nat → Nat → Int → Unit × JSVal) :
    ∀ ps : List (Nat × Nat),
      (forEachOn get cb ps ()).2 = true ↔
        ∀ p ∈ ps, (cb () p.1 p.2 ((get ()).getTile p.1 p.2)).2 ≠ JSVal.boolean false := by
  intro ps
  induction ps with
  | nil => simp [forEachOn_nil]
  | cons p t ih =>
    obtain ⟨r, c⟩ := p
    rw [forEachOn_cons]
    by_cases hc : (cb () r c ((get ()).getTile r c)).2 = JSVal.boolean false
    · rw [if_pos hc]
      constructor
      · intro h
        cases h
      · intro h
        exact absurd hc (h (r, c) (List.mem_cons_self _ _))
    · rw [if_neg hc]
      constructor
      · intro h q hq
        rcases List.mem_cons.mp hq with he | hm
        · rw [he]
          exact hc
        · exact (ih.mp h) q hm
      · intro h
        exact ih.mpr (fun q hq => h q (List.mem_cons.mpr (Or.inr hq)))

/-- Exchange identity used for counter maintenance: if `a` occurs exactly once
in `l` and two predicates agree off `a`, their counts differ exactly by the
contribution at `a`. -/
theorem countP_update {α : Type} [DecidableEq α] (l : List α) (a : α) (f g : α → Bool)
    (hcount : l.countP (fun x => decide (x = a)) = 1)
    (hoff : ∀ x ∈ l, x ≠ a → f x = g x) :
    l.countP f + (if g a then 1 else 0) = l.countP g + (if f a then 1 else 0) := by
  induction l with
  | nil => simp at hcount
  | cons x t ih =>
    rw [List.countP_cons] at hcount
    rw [List.countP_cons, List.countP_cons]
    by_cases hx : x = a
    · subst hx
      rw [if_pos (by simp)] at hcount
      have ht0 : t.countP (fun y => decide (y = x)) = 0 := by omega
      have hne : ∀ y ∈ t, y ≠ x := by
        intro y hy he
        have := List.countP_eq_zero.mp ht0 y hy
        simp [he] at this
      have heq : t.countP f = t.countP g :=
        List.countP_congr (fun y hy => by
          rw [hoff y (List.mem_cons.mpr (Or.inr hy)) (hne y hy)])
      rw [heq]
      omega
    · rw [if_neg (by simp [hx])] at hcount
      have hfg : f x = g x := hoff x (List.mem_cons_self _ _) hx
      have := ih (by omega) (fun y hy hne => hoff y (List.mem_cons.mpr (Or.inr hy)) hne)
      rw [hfg]
      omega

/-! ### UserBoard write characterization -/

/-- In-range `UserBoard.setTile`: the cell is overwritten and each counter is
adjusted by the contributions of the old and the new value. -/
theorem UserBoard.setTile_eq {u : UserBoard} {row col : Nat} {tile : Int}
    (h : u.board.getIndex_ row col < u.board.data_.length) :
    u.setTile row col tile =
      UserBoard.mk (u.board.setTile row col tile)
        (u.flagCount - (if u.getTile row col = Tile.FLAG then 1 else 0)
          + (if tile = Tile.FLAG then 1 else 0))
        (u.unknownCount - (if u.getTile row col = Tile.UNKNOWN then 1 else 0)
          + (if tile = Tile.UNKNOWN then 1 else 0)) := by
  have hmid : ∀ fc uc : Int,
      (UserBoard.mk (u.board.setTile row col tile) fc uc).getTile row col = tile :=
    fun _ _ => Board.getTile_setTile_self h
  simp only [UserBoard.setTile]
  by_cases h1 : u.getTile row col = Tile.FLAG
  · have h2 : ¬ u.getTile row col = Tile.UNKNOWN := by rw [h1]; decide
    simp only [if_pos h1, if_neg h2, hmid]
    by_cases h3 : tile = Tile.FLAG
    · have h4 : ¬ tile = Tile.UNKNOWN := by rw [h3]; decide
      simp only [if_pos h3, if_neg h4, UserBoard.mk.injEq]
      refine ⟨?_, ?_, ?_⟩ <;> first | trivial | omega
    · by_cases h4 : tile = Tile.UNKNOWN
      · simp only [if_neg h3, if_pos h4, UserBoard.mk.injEq]
        refine ⟨?_, ?_, ?_⟩ <;> first | trivial | omega
      · simp only [if_neg h3, if_neg h4, UserBoard.mk.injEq]
        refine ⟨?_, ?_, ?_⟩ <;> first | trivial | omega
  · by_cases h2 : u.getTile row col = Tile.UNKNOWN
    · simp only [if_neg h1, if_pos h2, hmid]
      by_cases h3 : tile = Tile.FLAG
      · have h4 : ¬ tile = Tile.UNKNOWN := by rw [h3]; decide
        simp only [if_pos h3, if_neg h4, UserBoard.mk.injEq]
        refine ⟨?_, ?_, ?_⟩ <;> first | trivial | omega
      · by_cases h4 : tile = Tile.UNKNOWN
        · simp only [if_neg h3, if_pos h4, UserBoard.mk.injEq]
          refine ⟨?_, ?_, ?_⟩ <;> first | trivial | omega
        · simp only [if_neg h3, if_neg h4, UserBoard.mk.injEq]
          refine ⟨?_, ?_, ?_⟩ <;> first | trivial | omega
    · simp only [if_neg h1, if_neg h2, hmid]
      by_cases h3 : tile = Tile.FLAG
      · have h4 : ¬ tile = Tile.UNKNOWN := by rw [h3]; decide
        simp only [if_pos h3, if_neg h4, UserBoard.mk.injEq]
        refine ⟨?_, ?_, ?_⟩ <;> first | trivial | omega
      · by_cases h4 : tile = Tile.UNKNOWN
        · simp only [if_neg h3, if_pos h4, UserBoard.mk.injEq]
          refine ⟨?_, ?_, ?_⟩ <;> first | trivial | omega
        · simp only [if_neg h3, if_neg h4, UserBoard.mk.injEq]
          refine ⟨?_, ?_, ?_⟩ <;> first | trivial | omega

/-- `UserBoard.setTile` at the append position (used only by the construction
loops): the old read falls beyond the populated range, so no counter is
decremented. -/
theorem UserBoard.setTile_append {u : UserBoard} {row col : Nat} {tile : Int}
    (h : u.board.getIndex_ row col = u.board.data_.length) :
    u.setTile row col tile =
      UserBoard.mk { u.board with data_ := u.board.data_ ++ [tile] }
        (u.flagCount + (if tile = Tile.FLAG then 1 else 0))
        (u.unknownCount + (if tile = Tile.UNKNOWN then 1 else 0)) := by
  have hold : u.getTile row col = 0 := by
    show u.board.data_.getD (u.board.getIndex_ row col) 0 = 0
    exact List.getD_eq_default _ _ (by omega)
  have h1 : ¬ u.getTile row col = Tile.FLAG := by rw [hold]; decide
  have h2 : ¬ u.getTile row col = Tile.UNKNOWN := by rw [hold]; decide
  have hmid : ∀ fc uc : Int,
      (UserBoard.mk { u.board with data_ := u.board.data_ ++ [tile] } fc uc).getTile row col =
        tile := by
    intro fc uc
    show (u.board.data_ ++ [tile]).getD (u.board.getIndex_ row col) 0 = tile
    rw [h, List.getD_append_right _ _ _ _ (Nat.le_refl _)]
    simp
  simp only [UserBoard.setTile, if_neg h1, if_neg h2, Board.setTile_eq_append h, hmid]
  by_cases h3 : tile = Tile.FLAG
  · have h4 : ¬ tile = Tile.UNKNOWN := by rw [h3]; decide
    simp only [if_pos h3, if_neg h4, UserBoard.mk.injEq]
    refine ⟨?_, ?_, ?_⟩ <;> first | trivial | omega
  · by_cases h4 : tile = Tile.UNKNOWN
    · simp only [if_neg h3, if_pos h4, UserBoard.mk.injEq]
      refine ⟨?_, ?_, ?_⟩ <;> first | trivial | omega
    · simp only [if_neg h3, if_neg h4, UserBoard.mk.injEq]
      refine ⟨?_, ?_, ?_⟩ <;> first | trivial | omega

/-! ### Construction closed forms -/

theorem initBoard_fold (ps : List (Nat × Nat)) :
    ∀ u : UserBoard,
      ps.map (fun p => u.board.getIndex_ p.1 p.2) =
        List.range' u.board.data_.length ps.length →
      forEachOn (fun x : UserBoard => x.board)
          (fun x r c _t => (x.setTile r c Tile.UNKNOWN, JSVal.undef)) ps u =
        (UserBoard.mk
          { u.board with data_ := u.board.data_ ++ List.replicate ps.length Tile.UNKNOWN }
          u.flagCount (u.unknownCount + ps.length), true) := by
  induction ps with
  | nil =>
    intro u hidx
    rw [forEachOn_nil]
    simp
  | cons p t ih =>
    intro u hidx
    obtain ⟨r, c⟩ := p
    rw [List.map_cons, List.length_cons, List.range'_succ] at hidx
    have h1 : u.board.getIndex_ r c = u.board.data_.length := (List.cons.injEq _ _ _ _ ▸ hidx).1
    have h2 : t.map (fun p => u.board.getIndex_ p.1 p.2) =
        List.range' (u.board.data_.length + 1) t.length := (List.cons.injEq _ _ _ _ ▸ hidx).2
    rw [forEachOn_cons, if_neg (by exact fun h => JSVal.noConfusion h)]
    have hset := @UserBoard.setTile_append u r c Tile.UNKNOWN h1
    rw [if_neg (by decide), if_pos rfl, add_zero] at hset
    dsimp only
    rw [hset]
    have h2' : t.map (fun p =>
        (UserBoard.mk { u.board with data_ := u.board.data_ ++ [Tile.UNKNOWN] }
          u.flagCount (u.unknownCount + 1)).board.getIndex_ p.1 p.2) =
        List.range' (UserBoard.mk { u.board with data_ := u.board.data_ ++ [Tile.UNKNOWN] }
          u.flagCount (u.unknownCount + 1)).board.data_.length t.length := by
      show t.map (fun p => u.board.getIndex_ p.1 p.2) =
        List.range' (u.board.data_ ++ [Tile.UNKNOWN]).length t.length
      rw [h2]
      congr 1
      simp
    rw [ih _ h2']
    dsimp only
    rw [Prod.mk.injEq]
    refine ⟨?_, rfl⟩
    rw [UserBoard.mk.injEq]
    refine ⟨?_, rfl, ?_⟩
    · rw [Board.mk.injEq]
      refine ⟨rfl, rfl, ?_⟩
      rw [List.append_assoc, List.length_cons, List.replicate_succ, List.singleton_append]
    · rw [List.length_cons]
      push_cast
      ring

theorem construct_eq (rows cols : Nat) :
    UserBoard.construct rows cols =
      UserBoard.mk (Board.mk rows cols (List.replicate (rows * cols) Tile.UNKNOWN))
        0 (rows * cols) := by
  unfold UserBoard.construct UserBoard.initBoard_ Board.forEachTile
  have hidx : (rowMajor rows cols).map
      (fun p => (Board.mk rows cols []).getIndex_ p.1 p.2) =
      List.range' (0 : Nat) ((rowMajor rows cols).length) := by
    show (rowMajor rows cols).map (fun p => p.1 * cols + p.2) =
      List.range' 0 ((rowMajor rows cols).length)
    rw [rowMajor_map_getIndex, rowMajor_length, List.range_eq_range']
  have hfold := initBoard_fold (rowMajor rows cols)
    (UserBoard.mk (Board.mk rows cols []) 0 0) hidx
  dsimp only at hfold ⊢
  rw [hfold]
  dsimp only
  rw [UserBoard.mk.injEq]
  refine ⟨?_, rfl, ?_⟩
  · rw [Board.mk.injEq]
    exact ⟨rfl, rfl, by rw [rowMajor_length]; rfl⟩
  · rw [rowMajor_length]
    push_cast
    ring

theorem clearFold_aux (ps : List (Nat × Nat)) :
    ∀ (b : Board) (mc : Int),
      ps.map (fun p => b.getIndex_ p.1 p.2) = List.range' b.data_.length ps.length →
      ∃ mcf, forEachOn (fun s : Board × Int => s.1)
          (fun s r c _t =>
            if s.2 > 0 then ((s.1.setTile r c Tile.MINE, s.2 - 1), JSVal.undef)
            else ((s.1.setTile r c 0, s.2), JSVal.undef)) ps (b, mc) =
        (({ b with data_ := b.data_ ++ clearData mc ps.length }, mcf), true) := by
  induction ps with
  | nil =>
    intro b mc hidx
    refine ⟨mc, ?_⟩
    rw [forEachOn_nil]
    simp [clearData]
  | cons p t ih =>
    intro b mc hidx
    obtain ⟨r, c⟩ := p
    rw [List.map_cons, List.length_cons, List.range'_succ] at hidx
    have h1 : b.getIndex_ r c = b.data_.length := (List.cons.injEq _ _ _ _ ▸ hidx).1
    have h2 : t.map (fun p => b.getIndex_ p.1 p.2) =
        List.range' (b.data_.length + 1) t.length := (List.cons.injEq _ _ _ _ ▸ hidx).2
    have hstep : ∀ v : Int, t.map (fun p =>
        ({ b with data_ := b.data_ ++ [v] } : Board).getIndex_ p.1 p.2) =
        List.range' ({ b with data_ := b.data_ ++ [v] } : Board).data_.length t.length := by
      intro v
      show t.map (fun p => b.getIndex_ p.1 p.2) = List.range' (b.data_ ++ [v]).length t.length
      rw [h2]
      congr 1
      simp
    have hdata : ∀ v : Int, (mc > 0 → v = Tile.MINE) → (¬ mc > 0 → v = 0) →
        ∀ mc' : Int, (mc > 0 → mc' = mc - 1) → (¬ mc > 0 → mc' = mc) →
        [v] ++ clearData mc' t.length = clearData mc (t.length + 1) := by
      intro v hv1 hv2 mc' hm1 hm2
      unfold clearData
      rw [List.range_succ_eq_map, List.map_cons, List.map_map, List.singleton_append]
      by_cases hmc : mc > 0
      · rw [if_pos (by push_cast; omega), hv1 hmc, hm1 hmc]
        congr 1
        apply List.map_congr_left
        intro k _
        show (if (k : Int) < mc - 1 then Tile.MINE else 0) =
          (if ((k + 1 : Nat) : Int) < mc then Tile.MINE else 0)
        by_cases hk : ((k : Int) < mc - 1)
        · rw [if_pos hk, if_pos (by push_cast; omega)]
        · rw [if_neg hk, if_neg (by push_cast; omega)]
      · rw [if_neg (by push_cast; omega), hv2 hmc, hm2 hmc]
        congr 1
        apply List.map_congr_left
        intro k _
        show (if (k : Int) < mc then Tile.MINE else 0) =
          (if ((k + 1 : Nat) : Int) < mc then Tile.MINE else 0)
        by_cases hk : ((k : Int) < mc)
        · rw [if_pos hk, if_pos (by push_cast; omega)]
        · rw [if_neg hk, if_neg (by push_cast; omega)]
    rw [forEachOn_cons]
    by_cases hmc : mc > 0
    · rw [if_pos hmc]
      dsimp only
      rw [if_neg (by exact fun h => JSVal.noConfusion h), Board.setTile_eq_append h1]
      rcases ih _ (mc - 1) (hstep Tile.MINE) with ⟨mcf, hfold⟩
      refine ⟨mcf, ?_⟩
      rw [hfold, Prod.mk.injEq]
      refine ⟨?_, rfl⟩
      rw [Prod.mk.injEq]
      refine ⟨?_, rfl⟩
      rw [Board.mk.injEq]
      refine ⟨rfl, rfl, ?_⟩
      rw [List.append_assoc, List.length_cons,
        hdata Tile.MINE (fun _ => rfl) (fun h => absurd hmc h)
          (mc - 1) (fun _ => rfl) (fun h => absurd hmc h)]
    · rw [if_neg hmc]
      dsimp only
      rw [if_neg (by exact fun h => JSVal.noConfusion h), Board.setTile_eq_append h1]
      rcases ih _ mc (hstep 0) with ⟨mcf, hfold⟩
      refine ⟨mcf, ?_⟩
      rw [hfold, Prod.mk.injEq]
      refine ⟨?_, rfl⟩
      rw [Prod.mk.injEq]
      refine ⟨?_, rfl⟩
      rw [Board.mk.injEq]
      refine ⟨rfl, rfl, ?_⟩
      rw [List.append_assoc, List.length_cons,
        hdata 0 (fun h => absurd h hmc) (fun _ => rfl)
          mc (fun h => absurd h hmc) (fun _ => rfl)]

theorem clearFold_data (rows cols : Nat) (mines : Int) :
    (MineBoard.clearFold rows cols mines).1 =
      Board.mk rows cols (clearData mines (rows * cols)) := by
  unfold MineBoard.clearFold Board.forEachTile
  have hidx : (rowMajor rows cols).map
      (fun p => (Board.mk rows cols []).getIndex_ p.1 p.2) =
      List.range' (0 : Nat) ((rowMajor rows cols).length) := by
    show (rowMajor rows cols).map (fun p => p.1 * cols + p.2) =
      List.range' 0 ((rowMajor rows cols).length)
    rw [rowMajor_map_getIndex, rowMajor_length, List.range_eq_range']
  rcases clearFold_aux (rowMajor rows cols) (Board.mk rows cols []) mines hidx with ⟨mcf, hfold⟩
  dsimp only at hfold ⊢
  rw [hfold]
  dsimp only
  rw [Board.mk.injEq]
  exact ⟨rfl, rfl, by rw [rowMajor_length]; rfl⟩

/-! ### Counter invariant -/

theorem countP_val_set (b : Board) (row col : Nat) (tile v : Int)
    (hWF : b.WF) (hr : row < b.rowCount) (hc : col < b.colCount) :
    (rowMajor b.rowCount b.colCount).countP
        (fun p => decide ((b.setTile row col tile).getTile p.1 p.2 = v))
      + (if b.getTile row col = v then 1 else 0) =
    (rowMajor b.rowCount b.colCount).countP (fun p => decide (b.getTile p.1 p.2 = v))
      + (if tile = v then 1 else 0) := by
  have hidx : b.getIndex_ row col < b.data_.length := by
    have := Board.getIndex_lt hr hc
    unfold Board.WF at hWF
    omega
  have h := countP_update (rowMajor b.rowCount b.colCount) (row, col)
    (fun p => decide ((b.setTile row col tile).getTile p.1 p.2 = v))
    (fun p => decide (b.getTile p.1 p.2 = v))
    (count_rowMajor hr hc)
    (fun x hx hne => by
      have hxr := mem_rowMajor.mp hx
      show decide ((b.setTile row col tile).getTile x.1 x.2 = v) =
        decide (b.getTile x.1 x.2 = v)
      rw [Board.getTile_setTile_ne (Board.getIndex_ne hc hxr.2 hne)])
  dsimp only at h
  simp only [decide_eq_true_eq] at h
  rw [Board.getTile_setTile_self hidx] at h
  omega

theorem setTile_counterInv {u : UserBoard} {row col : Nat} {tile : Int}
    (hWF : u.board.WF) (hr : row < u.board.rowCount) (hc : col < u.board.colCount)
    (hInv : CounterInv u) : CounterInv (u.setTile row col tile) := by
  have hidx : u.board.getIndex_ row col < u.board.data_.length := by
    have := Board.getIndex_lt hr hc
    unfold Board.WF at hWF
    omega
  rcases hInv with ⟨hf, hu⟩
  simp only [flagCells, unknownCells, UserBoard.getTile] at hf hu
  rw [UserBoard.setTile_eq hidx]
  unfold CounterInv
  simp only [flagCells, unknownCells, UserBoard.getTile]
  rw [Board.setTile_rowCount, Board.setTile_colCount]
  constructor
  · have h := countP_val_set u.board row col tile Tile.FLAG hWF hr hc
    by_cases h1 : u.board.getTile row col = Tile.FLAG
    · by_cases h2 : tile = Tile.FLAG
      · rw [if_pos h1, if_pos h2] at h ⊢
        omega
      · rw [if_pos h1, if_neg h2] at h ⊢
        omega
    · by_cases h2 : tile = Tile.FLAG
      · rw [if_neg h1, if_pos h2] at h ⊢
        omega
      · rw [if_neg h1, if_neg h2] at h ⊢
        omega
  · have h := countP_val_set u.board row col tile Tile.UNKNOWN hWF hr hc
    by_cases h1 : u.board.getTile row col = Tile.UNKNOWN
    · by_cases h2 : tile = Tile.UNKNOWN
      · rw [if_pos h1, if_pos h2] at h ⊢
        omega
      · rw [if_pos h1, if_neg h2] at h ⊢
        omega
    · by_cases h2 : tile = Tile.UNKNOWN
      · rw [if_neg h1, if_pos h2] at h ⊢
        omega
      · rw [if_neg h1, if_neg h2] at h ⊢
        omega

theorem setTile_dims {u : UserBoard} {row col : Nat} {tile : Int}
    (hWF : u.board.WF) (hr : row < u.board.rowCount) (hc : col < u.board.colCount) :
    (u.setTile row col tile).board.rowCount = u.board.rowCount ∧
    (u.setTile row col tile).board.colCount = u.board.colCount ∧
    (u.setTile row col tile).board.WF := by
  have hidx : u.board.getIndex_ row col < u.board.data_.length := by
    have := Board.getIndex_lt hr hc
    unfold Board.WF at hWF
    omega
  rw [UserBoard.setTile_eq hidx]
  dsimp only
  refine ⟨Board.setTile_rowCount _ _ _ _, Board.setTile_colCount _ _ _ _, ?_⟩
  unfold Board.WF
  rw [Board.setTile_rowCount, Board.setTile_colCount, Board.setTile_length hidx]
  exact hWF

/-- Every cell counts towards exactly one of the three classes. -/
theorem counters_partition (u : UserBoard) :
    flagCells u + unknownCells u + revealedCells u =
      u.board.rowCount * u.board.colCount := by
  unfold flagCells unknownCells revealedCells
  rw [← rowMajor_length u.board.rowCount u.board.colCount]
  generalize rowMajor u.board.rowCount u.board.colCount = l
  induction l with
  | nil => rfl
  | cons x t ih =>
    rw [List.countP_cons, List.countP_cons, List.countP_cons, List.length_cons]
    simp only [decide_eq_true_eq]
    by_cases h1 : u.getTile x.1 x.2 = Tile.FLAG
    · rw [if_pos h1, if_neg (by rw [h1]; decide), if_neg (fun hC => hC.1 h1)]
      omega
    · by_cases h2 : u.getTile x.1 x.2 = Tile.UNKNOWN
      · rw [if_neg h1, if_pos h2, if_neg (fun hC => hC.2 h2)]
        omega
      · rw [if_neg h1, if_neg h2, if_pos ⟨h1, h2⟩]
        omega

/-! ### Counting cells through the backing array -/

theorem countP_getD_range (d : List Int) (f : Int → Bool) :
    (List.range d.length).countP (fun i => f (d.getD i 0)) = d.countP f := by
  induction d with
  | nil => rfl
  | cons a t ih =>
    rw [List.length_cons, List.range_succ_eq_map, List.countP_cons, List.countP_map]
    have h1 : (List.range t.length).countP ((fun i => f ((a :: t).getD i 0)) ∘ Nat.succ) =
        (List.range t.length).countP (fun i => f (t.getD i 0)) := rfl
    rw [h1, ih, List.countP_cons]
    rfl

theorem countP_getTile_eq_data (b : Board) (hWF : b.WF) (f : Int → Bool) :
    (rowMajor b.rowCount b.colCount).countP (fun p => f (b.getTile p.1 p.2)) =
      b.data_.countP f := by
  have h1 : (rowMajor b.rowCount b.colCount).countP (fun p => f (b.getTile p.1 p.2)) =
      ((rowMajor b.rowCount b.colCount).map (fun p => p.1 * b.colCount + p.2)).countP
        (fun i => f (b.data_.getD i 0)) := by
    rw [List.countP_map]
    rfl
  rw [h1, rowMajor_map_getIndex]
  unfold Board.WF at hWF
  rw [← hWF]
  exact countP_getD_range b.data_ f

theorem clearData_length (m : Int) (T : Nat) : (clearData m T).length = T := by
  unfold clearData
  simp

theorem clearData_mem {m : Int} {T : Nat} {v : Int} (h : v ∈ clearData m T) :
    v = Tile.MINE ∨ v = 0 := by
  unfold clearData at h
  rcases List.mem_map.mp h with ⟨k, _, he⟩
  by_cases hk : (k : Int) < m
  · rw [if_pos hk] at he
    exact Or.inl he.symm
  · rw [if_neg hk] at he
    exact Or.inr he.symm

theorem clearData_count (m : Int) (T : Nat) :
    (clearData m T).countP (fun v => decide (v = Tile.MINE)) = min m.toNat T := by
  induction T with
  | zero => simp [clearData]
  | succ n ih =>
    unfold clearData at ih ⊢
    rw [List.range_succ, List.map_append, List.countP_append, ih]
    have h1 : ([if (n : Int) < m then Tile.MINE else 0].countP
        (fun v => decide (v = Tile.MINE))) = if (n : Int) < m then 1 else 0 := by
      by_cases h : (n : Int) < m
      · rw [if_pos h, if_pos h]
        decide
      · rw [if_neg h, if_neg h]
        decide
    rw [List.map_singleton, h1]
    by_cases h : (n : Int) < m
    · rw [if_pos h]
      omega
    · rw [if_neg h]
      omega

/-! ### The adjacency pass -/

theorem incFold_getTile (ns : List (Nat × Nat)) :
    ∀ b : Board, b.WF → (∀ x ∈ ns, x.1 < b.rowCount ∧ x.2 < b.colCount) →
      (forEachOn (fun x : Board => x)
        (fun x r c tile =>
          if tile ≥ 0 then (x.setTile r c (tile + 1), JSVal.undef) else (x, JSVal.undef))
        ns b).1.rowCount = b.rowCount ∧
      (forEachOn (fun x : Board => x)
        (fun x r c tile =>
          if tile ≥ 0 then (x.setTile r c (tile + 1), JSVal.undef) else (x, JSVal.undef))
        ns b).1.colCount = b.colCount ∧
      (forEachOn (fun x : Board => x)
        (fun x r c tile =>
          if tile ≥ 0 then (x.setTile r c (tile + 1), JSVal.undef) else (x, JSVal.undef))
        ns b).1.WF ∧
      ∀ q : Nat × Nat, q.1 < b.rowCount → q.2 < b.colCount →
        (forEachOn (fun x : Board => x)
          (fun x r c tile =>
            if tile ≥ 0 then (x.setTile r c (tile + 1), JSVal.undef) else (x, JSVal.undef))
          ns b).1.getTile q.1 q.2 =
          (if b.getTile q.1 q.2 ≥ 0
            then b.getTile q.1 q.2 + (cellCount q ns : Int)
            else b.getTile q.1 q.2) := by
  induction ns with
  | nil =>
    intro b hWF hns
    rw [forEachOn_nil]
    refine ⟨rfl, rfl, hWF, ?_⟩
    intro q h1 h2
    by_cases h : b.getTile q.1 q.2 ≥ 0
    · rw [if_pos h]
      unfold cellCount
      simp
    · rw [if_neg h]
  | cons x t ih =>
    intro b hWF hns
    obtain ⟨r, c⟩ := x
    have hx := hns (r, c) (List.mem_cons_self _ _)
    have hx1 : r < b.rowCount := hx.1
    have hx2 : c < b.colCount := hx.2
    have hidx : b.getIndex_ r c < b.data_.length := by
      have := Board.getIndex_lt hx1 hx2
      unfold Board.WF at hWF
      omega
    rw [forEachOn_cons]
    by_cases hb : b.getTile r c ≥ 0
    · rw [if_pos hb]
      rw [if_neg (by exact fun h => JSVal.noConfusion h)]
      have hWF' : (b.setTile r c (b.getTile r c + 1)).WF := by
        unfold Board.WF
        rw [Board.setTile_rowCount, Board.setTile_colCount, Board.setTile_length hidx]
        exact hWF
      have hdims : (b.setTile r c (b.getTile r c + 1)).rowCount = b.rowCount ∧
          (b.setTile r c (b.getTile r c + 1)).colCount = b.colCount :=
        ⟨Board.setTile_rowCount _ _ _ _, Board.setTile_colCount _ _ _ _⟩
      have hns' : ∀ y ∈ t, y.1 < (b.setTile r c (b.getTile r c + 1)).rowCount ∧
          y.2 < (b.setTile r c (b.getTile r c + 1)).colCount := by
        intro y hy
        rw [hdims.1, hdims.2]
        exact hns y (List.mem_cons.mpr (Or.inr hy))
      rcases ih _ hWF' hns' with ⟨hR, hC, hW, hq⟩
      refine ⟨by rw [hR, hdims.1], by rw [hC, hdims.2], hW, ?_⟩
      intro q h1 h2
      have hq' := hq q (by rw [hdims.1]; exact h1) (by rw [hdims.2]; exact h2)
      by_cases he : q = (r, c)
      · rw [hq', he]
        dsimp only
        rw [Board.getTile_setTile_self hidx]
        rw [if_pos (show b.getTile r c + 1 ≥ 0 by omega), if_pos hb,
          cellCount_cons, if_pos rfl]
        push_cast
        ring
      · have hne : b.getIndex_ q.1 q.2 ≠ b.getIndex_ r c :=
          Board.getIndex_ne hx2 h2 he
        rw [hq', Board.getTile_setTile_ne hne, cellCount_cons,
          if_neg (show ¬ ((r, c) = q) from fun hh => he hh.symm), Nat.add_zero]
    · rw [if_neg hb]
      rw [if_neg (by exact fun h => JSVal.noConfusion h)]
      rcases ih _ hWF (fun y hy => hns y (List.mem_cons.mpr (Or.inr hy))) with ⟨hR, hC, hW, hq⟩
      refine ⟨hR, hC, hW, ?_⟩
      intro q h1 h2
      by_cases he : q = (r, c)
      · rw [hq q h1 h2, he]
        dsimp only
        rw [if_neg hb, if_neg hb]
      · rw [hq q h1 h2, cellCount_cons,
          if_neg (show ¬ ((r, c) = q) from fun hh => he hh.symm), Nat.add_zero]

/-- Pointwise effect of `incrementAdjacentTiles_`: every in-bounds boundary
cell whose value is nonnegative gains one; mines (and all other cells) are
untouched. -/
theorem incAdj_getTile (b : Board) (row col : Nat) (hWF : b.WF) :
    (b.incrementAdjacentTiles_ row col).rowCount = b.rowCount ∧
    (b.incrementAdjacentTiles_ row col).colCount = b.colCount ∧
    (b.incrementAdjacentTiles_ row col).WF ∧
    ∀ q : Nat × Nat, q.1 < b.rowCount → q.2 < b.colCount →
      (b.incrementAdjacentTiles_ row col).getTile q.1 q.2 =
        (if b.getTile q.1 q.2 ≥ 0
          then b.getTile q.1 q.2 +
            (cellCount q (boundaryCells b.rowCount b.colCount row col) : Int)
          else b.getTile q.1 q.2) := by
  unfold Board.incrementAdjacentTiles_ Board.forEachBoundaryTile
  exact incFold_getTile (boundaryCells b.rowCount b.colCount row col) b hWF
    (fun x hx => boundaryCells_inRange hx)

/-- The mine-processing fold of the adjacency pass.  Mines stay mines,
non-mine cells gain one for every processed mine whose neighbourhood contains
them. -/
theorem adjPassFold (ps : List (Nat × Nat)) :
    ∀ b : Board, b.WF → (∀ x ∈ ps, x.1 < b.rowCount ∧ x.2 < b.colCount) →
      (∀ q : Nat × Nat, q.1 < b.rowCount → q.2 < b.colCount →
        b.getTile q.1 q.2 = Tile.MINE ∨ b.getTile q.1 q.2 ≥ 0) →
      (forEachOn (fun x : Board => x)
        (fun x r c tile =>
          if tile = Tile.MINE then (x.incrementAdjacentTiles_ r c, JSVal.undef)
          else (x, JSVal.undef)) ps b).1.rowCount = b.rowCount ∧
      (forEachOn (fun x : Board => x)
        (fun x r c tile =>
          if tile = Tile.MINE then (x.incrementAdjacentTiles_ r c, JSVal.undef)
          else (x, JSVal.undef)) ps b).1.colCount = b.colCount ∧
      (forEachOn (fun x : Board => x)
        (fun x r c tile =>
          if tile = Tile.MINE then (x.incrementAdjacentTiles_ r c, JSVal.undef)
          else (x, JSVal.undef)) ps b).1.WF ∧
      ∀ q : Nat × Nat, q.1 < b.rowCount → q.2 < b.colCount →
        (b.getTile q.1 q.2 = Tile.MINE →
          (forEachOn (fun x : Board => x)
            (fun x r c tile =>
              if tile = Tile.MINE then (x.incrementAdjacentTiles_ r c, JSVal.undef)
              else (x, JSVal.undef)) ps b).1.getTile q.1 q.2 = Tile.MINE) ∧
        (b.getTile q.1 q.2 ≥ 0 →
          (forEachOn (fun x : Board => x)
            (fun x r c tile =>
              if tile = Tile.MINE then (x.incrementAdjacentTiles_ r c, JSVal.undef)
              else (x, JSVal.undef)) ps b).1.getTile q.1 q.2 =
            b.getTile q.1 q.2 +
              (ps.countP (fun x => decide (b.getTile x.1 x.2 = Tile.MINE ∧
                q ∈ boundaryCells b.rowCount b.colCount x.1 x.2)) : Int)) := by
  induction ps with
  | nil =>
    intro b hWF hns hvals
    rw [forEachOn_nil]
    refine ⟨rfl, rfl, hWF, ?_⟩
    intro q h1 h2
    refine ⟨fun h => h, fun h => ?_⟩
    rw [List.countP_nil]
    push_cast
    ring
  | cons x t ih =>
    intro b hWF hns hvals
    obtain ⟨r, c⟩ := x
    have hx1 : r < b.rowCount := (hns (r, c) (List.mem_cons_self _ _)).1
    have hx2 : c < b.colCount := (hns (r, c) (List.mem_cons_self _ _)).2
    rw [forEachOn_cons]
    by_cases hb : b.getTile r c = Tile.MINE
    · rw [if_pos hb]
      rw [if_neg (by exact fun h => JSVal.noConfusion h)]
      rcases incAdj_getTile b r c hWF with ⟨hR0, hC0, hW0, hcell⟩
      set b' := b.incrementAdjacentTiles_ r c with hb'
      have hmval : ∀ q : Nat × Nat, q.1 < b.rowCount → q.2 < b.colCount →
          (b'.getTile q.1 q.2 = Tile.MINE ↔ b.getTile q.1 q.2 = Tile.MINE) := by
        intro q h1 h2
        rw [hcell q h1 h2]
        rcases hvals q h1 h2 with h | h
        · rw [if_neg (by rw [h]; decide)]
        · rw [if_pos h]
          constructor
          · intro hh
            have : (0 : Int) ≤ (cellCount q (boundaryCells b.rowCount b.colCount r c) : Int) :=
              Int.natCast_nonneg _
            unfold Tile.MINE at hh
            omega
          · intro hh
            unfold Tile.MINE at hh
            omega
      have hvals' : ∀ q : Nat × Nat, q.1 < b'.rowCount → q.2 < b'.colCount →
          b'.getTile q.1 q.2 = Tile.MINE ∨ b'.getTile q.1 q.2 ≥ 0 := by
        intro q h1 h2
        rw [hR0] at h1
        rw [hC0] at h2
        rw [hcell q h1 h2]
        rcases hvals q h1 h2 with h | h
        · rw [if_neg (by rw [h]; decide)]
          exact Or.inl h
        · rw [if_pos h]
          right
          have : (0 : Int) ≤ (cellCount q (boundaryCells b.rowCount b.colCount r c) : Int) :=
            Int.natCast_nonneg _
          omega
      have hns' : ∀ y ∈ t, y.1 < b'.rowCount ∧ y.2 < b'.colCount := by
        intro y hy
        rw [hR0, hC0]
        exact hns y (List.mem_cons.mpr (Or.inr hy))
      rcases ih b' hW0 hns' hvals' with ⟨hR, hC, hW, hq⟩
      refine ⟨by rw [hR, hR0], by rw [hC, hC0], hW, ?_⟩
      intro q h1 h2
      have hq' := hq q (by rw [hR0]; exact h1) (by rw [hC0]; exact h2)
      have hcnt : t.countP (fun y => decide (b'.getTile y.1 y.2 = Tile.MINE ∧
            q ∈ boundaryCells b'.rowCount b'.colCount y.1 y.2)) =
          t.countP (fun y => decide (b.getTile y.1 y.2 = Tile.MINE ∧
            q ∈ boundaryCells b.rowCount b.colCount y.1 y.2)) := by
        apply List.countP_congr
        intro y hy
        have hyr := hns y (List.mem_cons.mpr (Or.inr hy))
        simp only [decide_eq_true_eq]
        rw [hmval y hyr.1 hyr.2, hR0, hC0]
      constructor
      · intro hm
        exact (hq'.1 ((hmval q h1 h2).mpr hm))
      · intro hge
        have hge' : b'.getTile q.1 q.2 = b.getTile q.1 q.2 +
            (cellCount q (boundaryCells b.rowCount b.colCount r c) : Int) := by
          rw [hcell q h1 h2, if_pos hge]
        have hge2 : b'.getTile q.1 q.2 ≥ 0 := by
          rw [hge']
          have hnn : (0 : Int) ≤ (cellCount q (boundaryCells b.rowCount b.colCount r c) : Int) :=
            Int.natCast_nonneg _
          omega
        have hfin := hq'.2 hge2
        rw [hfin, hcnt, hge', List.countP_cons]
        have hcond : decide (b.getTile r c = Tile.MINE ∧
            q ∈ boundaryCells b.rowCount b.colCount r c) =
            decide (q ∈ boundaryCells b.rowCount b.colCount r c) := by
          simp [hb]
        rw [hcond]
        by_cases hqb : q ∈ boundaryCells b.rowCount b.colCount r c
        · rw [count_boundaryCells_of_mem hqb, if_pos (decide_eq_true hqb)]
          push_cast
          ring
        · rw [count_boundaryCells_of_not_mem hqb,
            if_neg (by simp [hqb])]
          push_cast
          ring
    · rw [if_neg hb]
      rw [if_neg (by exact fun h => JSVal.noConfusion h)]
      rcases ih b hWF (fun y hy => hns y (List.mem_cons.mpr (Or.inr hy))) hvals with
        ⟨hR, hC, hW, hq⟩
      refine ⟨hR, hC, hW, ?_⟩
      intro q h1 h2
      refine ⟨(hq q h1 h2).1, fun hge => ?_⟩
      rw [(hq q h1 h2).2 hge, List.countP_cons,
        if_neg (by simp [hb]), Nat.add_zero]

/-! ### Characterization of constructed solution boards -/

theorem countP_adj_symm (b0 : Board) (q : Nat × Nat) (hq1 : q.1 < b0.rowCount)
    (hq2 : q.2 < b0.colCount) :
    (rowMajor b0.rowCount b0.colCount).countP
        (fun x => decide (b0.getTile x.1 x.2 = Tile.MINE ∧
          q ∈ boundaryCells b0.rowCount b0.colCount x.1 x.2)) =
    (boundaryCells b0.rowCount b0.colCount q.1 q.2).countP
        (fun y => decide (b0.getTile y.1 y.2 = Tile.MINE)) := by
  have hperm : (boundaryCells b0.rowCount b0.colCount q.1 q.2).Perm
      ((rowMajor b0.rowCount b0.colCount).filter
        (fun x => decide (x ∈ boundaryCells b0.rowCount b0.colCount q.1 q.2))) := by
    rw [List.perm_ext_iff_of_nodup (boundaryCells_nodup _ _ _ _)
      (List.Nodup.filter _ (rowMajor_nodup _ _))]
    intro a
    rw [List.mem_filter]
    constructor
    · intro ha
      exact ⟨mem_rowMajor.mpr (boundaryCells_inRange ha), decide_eq_true ha⟩
    · intro ha
      exact of_decide_eq_true ha.2
  rw [hperm.countP_eq, List.countP_filter]
  apply List.countP_congr
  intro x hx
  have hxr := mem_rowMajor.mp hx
  simp only [Bool.and_eq_true, decide_eq_true_eq]
  constructor
  · intro h
    exact ⟨h.1, mem_boundaryCells_symm hxr.1 hxr.2 h.2⟩
  · intro h
    exact ⟨h.1, mem_boundaryCells_symm hq1 hq2 h.2⟩

/-- Under the adjacency invariant, no neighbour of a `0` cell is a mine. -/
theorem zero_no_mine_neighbor {b : Board} (hadj : AdjacencyInv b) {r c : Nat}
    (hr : r < b.rowCount) (hc : c < b.colCount) (h0 : b.getTile r c = 0)
    {q : Nat × Nat} (hq : q ∈ boundaryCells b.rowCount b.colCount r c) :
    b.getTile q.1 q.2 ≠ Tile.MINE := by
  intro hm
  have hinv := hadj r c hr hc (by rw [h0]; decide)
  rw [h0] at hinv
  have hpos : 0 < (boundaryCells b.rowCount b.colCount r c).countP
      (fun y => decide (b.getTile y.1 y.2 = Tile.MINE)) :=
    List.countP_pos_iff.mpr ⟨q, hq, decide_eq_true hm⟩
  unfold adjacentMines at hinv
  omega

/-- Every board produced by the `MineBoard` constructor: correct dimensions,
a fully populated array, the stored `mineCount`, the exact mine cell count,
and the adjacency invariant. -/
theorem solution_board_char {mines : Int} {rows cols : Nat} {M : MineBoard}
    (h : SolutionConstructed mines rows cols M) :
    M.board.rowCount = rows ∧ M.board.colCount = cols ∧ M.board.WF ∧
    M.mineCount = mines ∧
    mineCells M.board = min mines.toNat (rows * cols) ∧
    AdjacencyInv M.board := by
  rcases h with ⟨d, hperm, hM⟩
  rw [clearFold_data] at hperm
  have hperm' : d.Perm (clearData mines (rows * cols)) := hperm
  have hlen : d.length = rows * cols := by
    rw [hperm'.length_eq, clearData_length]
  have hWF0 : (Board.mk rows cols d).WF := hlen
  have hvals0 : ∀ q : Nat × Nat, q.1 < rows → q.2 < cols →
      (Board.mk rows cols d).getTile q.1 q.2 = Tile.MINE ∨
        (Board.mk rows cols d).getTile q.1 q.2 ≥ 0 := by
    intro q h1 h2
    have hidx : (Board.mk rows cols d).getIndex_ q.1 q.2 < d.length := by
      have hlt : (Board.mk rows cols d).getIndex_ q.1 q.2 < rows * cols :=
        Board.getIndex_lt (b := Board.mk rows cols d) h1 h2
      omega
    have hmem : (Board.mk rows cols d).getTile q.1 q.2 ∈ d := by
      show d.getD _ 0 ∈ d
      rw [List.getD_eq_getElem _ _ hidx]
      exact List.getElem_mem _
    rcases clearData_mem (hperm'.mem_iff.mp hmem) with hv | hv
    · exact Or.inl hv
    · right
      rw [hv]
  have hfold := adjPassFold (rowMajor rows cols) (Board.mk rows cols d) hWF0
    (fun x hx => mem_rowMajor.mp hx)
    (fun q h1 h2 => hvals0 q h1 h2)
  rcases hfold with ⟨hR, hC, hW, hq⟩
  have hpass : MineBoard.adjacencyPass (Board.mk rows cols d) =
      (forEachOn (fun x : Board => x)
        (fun x r c tile =>
          if tile = Tile.MINE then (x.incrementAdjacentTiles_ r c, JSVal.undef)
          else (x, JSVal.undef)) (rowMajor rows cols) (Board.mk rows cols d)).1 := rfl
  subst hM
  dsimp only
  rw [hpass]
  have hmine_iff : ∀ q : Nat × Nat, q.1 < rows → q.2 < cols →
      ((forEachOn (fun x : Board => x)
        (fun x r c tile =>
          if tile = Tile.MINE then (x.incrementAdjacentTiles_ r c, JSVal.undef)
          else (x, JSVal.undef)) (rowMajor rows cols) (Board.mk rows cols d)).1.getTile q.1 q.2 =
        Tile.MINE ↔ (Board.mk rows cols d).getTile q.1 q.2 = Tile.MINE) := by
    intro q h1 h2
    constructor
    · intro hh
      rcases hvals0 q h1 h2 with hv | hv
      · exact hv
      · exfalso
        rw [(hq q h1 h2).2 hv] at hh
        have hnn : (0 : Int) ≤ ((rowMajor rows cols).countP
            (fun x => decide ((Board.mk rows cols d).getTile x.1 x.2 = Tile.MINE ∧
              q ∈ boundaryCells rows cols x.1 x.2)) : Int) := Int.natCast_nonneg _
        unfold Tile.MINE at hh
        omega
    · exact (hq q h1 h2).1
  refine ⟨hR, hC, hW, rfl, ?_, ?_⟩
  · -- mine cell count
    unfold mineCells
    rw [hR, hC]
    have hcong : (rowMajor rows cols).countP
        (fun p => decide ((forEachOn (fun x : Board => x)
          (fun x r c tile =>
            if tile = Tile.MINE then (x.incrementAdjacentTiles_ r c, JSVal.undef)
            else (x, JSVal.undef)) (rowMajor rows cols) (Board.mk rows cols d)).1.getTile
              p.1 p.2 = Tile.MINE)) =
        (rowMajor rows cols).countP
          (fun p => decide ((Board.mk rows cols d).getTile p.1 p.2 = Tile.MINE)) := by
      apply List.countP_congr
      intro p hp
      have hpr := mem_rowMajor.mp hp
      simp only [decide_eq_true_eq]
      exact hmine_iff p hpr.1 hpr.2
    rw [hcong]
    have hbridge := countP_getTile_eq_data (Board.mk rows cols d) hWF0
      (fun v => decide (v = Tile.MINE))
    rw [hbridge, hperm'.countP_eq, clearData_count]
  · -- adjacency invariant
    intro r c hr hc hnm
    rw [hR] at hr
    rw [hC] at hc
    have hb0 : (Board.mk rows cols d).getTile r c = 0 := by
      rcases hvals0 (r, c) hr hc with hv | hv
      · exact absurd ((hmine_iff (r, c) hr hc).mpr hv) hnm
      · have hmem : (Board.mk rows cols d).getTile r c ∈ d := by
          show d.getD _ 0 ∈ d
          have hidx : (Board.mk rows cols d).getIndex_ r c < d.length := by
            have hlt : (Board.mk rows cols d).getIndex_ r c < rows * cols :=
              Board.getIndex_lt (b := Board.mk rows cols d) hr hc
            omega
          rw [List.getD_eq_getElem _ _ hidx]
          exact List.getElem_mem _
        rcases clearData_mem (hperm'.mem_iff.mp hmem) with hv2 | hv2
        · exfalso
          exact absurd ((hmine_iff (r, c) hr hc).mpr hv2) hnm
        · exact hv2
    have hval := (hq (r, c) hr hc).2 (by rw [hb0])
    rw [hval, hb0]
    unfold adjacentMines
    rw [hR, hC]
    have hsym := countP_adj_symm (Board.mk rows cols d) (r, c) hr hc
    rw [hsym]
    have hcong2 : (boundaryCells rows cols r c).countP
        (fun y => decide ((forEachOn (fun x : Board => x)
          (fun x r c tile =>
            if tile = Tile.MINE then (x.incrementAdjacentTiles_ r c, JSVal.undef)
            else (x, JSVal.undef)) (rowMajor rows cols) (Board.mk rows cols d)).1.getTile
              y.1 y.2 = Tile.MINE)) =
        (boundaryCells rows cols r c).countP
          (fun y => decide ((Board.mk rows cols d).getTile y.1 y.2 = Tile.MINE)) := by
      apply List.countP_congr
      intro y hy
      have hyr := boundaryCells_inRange hy
      simp only [decide_eq_true_eq]
      exact hmine_iff y hyr.1 hyr.2
    rw [hcong2]
    push_cast
    ring

/-! ### Reveal: equations and reachability -/

theorem revealTileF_zero (g : Game) (row col : Nat) :
    Game.revealTileF 0 g row col = (g, JSVal.undef) := rfl

theorem revealTileF_succ (fuel : Nat) (g : Game) (row col : Nat) :
    Game.revealTileF (fuel + 1) g row col =
      if g.userBoard.getTile row col ≠ Tile.UNKNOWN ∧ g.userBoard.getTile row col ≠ Tile.FLAG
      then (g, JSVal.undef)
      else
        if g.mineBoard.getTile row col = Tile.MINE then
          ({ g with userBoard := g.userBoard.setTile row col (g.mineBoard.getTile row col) },
            JSVal.err "mine revealed")
        else if g.mineBoard.getTile row col = 0 then
          ((Board.forEachBoundaryTile (fun gg : Game => gg.mineBoard.board) row col
              (fun gg r c _t => Game.revealTileF fuel gg r c)
              { g with userBoard := g.userBoard.setTile row col (g.mineBoard.getTile row col) }).1,
            JSVal.null)
        else ({ g with userBoard := g.userBoard.setTile row col (g.mineBoard.getTile row col) },
          JSVal.null) := rfl

/-- The returned JS value of `revealTile` depends only on its own target
cell: `undefined` on a no-op, the mine error exactly when the target itself
is a mine, `null` otherwise.  Errors raised inside the cascade are discarded
by the neighbourhood iteration (an `Error` object is not the literal
`false`). -/
theorem revealTileF_snd (fuel : Nat) (g : Game) (row col : Nat) :
    (Game.revealTileF (fuel + 1) g row col).2 =
      if g.userBoard.getTile row col ≠ Tile.UNKNOWN ∧ g.userBoard.getTile row col ≠ Tile.FLAG
      then JSVal.undef
      else if g.mineBoard.getTile row col = Tile.MINE then JSVal.err "mine revealed"
      else JSVal.null := by
  rw [revealTileF_succ]
  split_ifs <;> rfl

theorem revealTileF_snd_ne_false (fuel : Nat) (g : Game) (row col : Nat) :
    (Game.revealTileF fuel g row col).2 ≠ JSVal.boolean false := by
  cases fuel with
  | zero =>
    rw [revealTileF_zero]
    exact fun h => JSVal.noConfusion h
  | succ f =>
    rw [revealTileF_snd]
    split_ifs <;> exact fun h => JSVal.noConfusion h

theorem ReachU_unrev {M u : Board} {R C : Nat} {p q : Nat × Nat}
    (h : ReachU M u R C p q) : Unrev u q := by
  induction h with
  | refl hu => exact hu
  | step hr hm hmem hu ih => exact hu

theorem ReachU_start {M u : Board} {R C : Nat} {p q : Nat × Nat}
    (h : ReachU M u R C p q) : Unrev u p := by
  induction h with
  | refl hu => exact hu
  | step hr hm hmem hu ih => exact ih

theorem ReachU_inRange {M u : Board} {R C : Nat} {p q : Nat × Nat}
    (h : ReachU M u R C p q) (hp : p.1 < R ∧ p.2 < C) : q.1 < R ∧ q.2 < C := by
  induction h with
  | refl hu => exact hp
  | step hr hm hmem hu ih => exact boundaryCells_inRange hmem

theorem ReachU_of_nonzero {M u : Board} {R C : Nat} {p q : Nat × Nat}
    (hp : M.getTile p.1 p.2 ≠ 0) (h : ReachU M u R C p q) : q = p := by
  induction h with
  | refl hu => rfl
  | step hr hm hmem hu ih =>
    rw [ih] at hm
    exact absurd hm hp

/-- Shrinking: a cascade step relation computed on a state `s` that equals
`M` on `W` and `u1` off `W` reaches, from a start off `W`, only cells that
are in `W` or already reachable in `u1`. -/
theorem ReachU_shrink {M u1 s : Board} {R C : Nat} {W : Nat × Nat → Prop}
    (hWs : ∀ q : Nat × Nat, q.1 < R → q.2 < C → W q →
      s.getTile q.1 q.2 = M.getTile q.1 q.2)
    (hWn : ∀ q : Nat × Nat, q.1 < R → q.2 < C → ¬ W q →
      s.getTile q.1 q.2 = u1.getTile q.1 q.2)
    {y q : Nat × Nat} (hy : y.1 < R ∧ y.2 < C) (h : ReachU M s R C y q) :
    W q ∨ ReachU M u1 R C y q := by
  induction h with
  | refl hu =>
    by_cases hw : W y
    · exact Or.inl hw
    · right
      refine ReachU.refl ?_
      unfold Unrev at hu ⊢
      rw [← hWn y hy.1 hy.2 hw]
      exact hu
  | step hr hm hmem hu ih =>
    rename_i q q'
    have hqr : q.1 < R ∧ q.2 < C := ReachU_inRange hr hy
    have hq'r : q'.1 < R ∧ q'.2 < C := boundaryCells_inRange hmem
    by_cases hw' : W q'
    · exact Or.inl hw'
    · have hu1q' : Unrev u1 q' := by
        unfold Unrev at hu ⊢
        rw [← hWn q' hq'r.1 hq'r.2 hw']
        exact hu
      rcases ih with hwq | hreach
      · exfalso
        have hs : s.getTile q.1 q.2 = M.getTile q.1 q.2 := hWs q hqr.1 hqr.2 hwq
        have hus : Unrev s q := ReachU_unrev hr
        unfold Unrev at hus
        rw [hs, hm] at hus
        rcases hus with hh | hh <;> exact absurd hh (by decide)
      · exact Or.inr (ReachU.step hreach hm hmem hu1q')

/-- Growing: anything reachable in `u1` is, on the updated state `s`, either
inside `W` or still reachable, provided `W` is closed under cascade steps. -/
theorem ReachU_grow {M u1 s : Board} {R C : Nat} {W : Nat × Nat → Prop}
    (_hWs : ∀ q : Nat × Nat, q.1 < R → q.2 < C → W q →
      s.getTile q.1 q.2 = M.getTile q.1 q.2)
    (hWn : ∀ q : Nat × Nat, q.1 < R → q.2 < C → ¬ W q →
      s.getTile q.1 q.2 = u1.getTile q.1 q.2)
    (hWcl : ∀ q q' : Nat × Nat, W q → M.getTile q.1 q.2 = 0 →
      q' ∈ boundaryCells R C q.1 q.2 → Unrev u1 q' → W q')
    {y q : Nat × Nat} (hy : y.1 < R ∧ y.2 < C) (h : ReachU M u1 R C y q) :
    W q ∨ ReachU M s R C y q := by
  induction h with
  | refl hu =>
    by_cases hw : W y
    · exact Or.inl hw
    · right
      refine ReachU.refl ?_
      unfold Unrev at hu ⊢
      rw [hWn y hy.1 hy.2 hw]
      exact hu
  | step hr hm hmem hu ih =>
    rename_i q q'
    have hq'r : q'.1 < R ∧ q'.2 < C := boundaryCells_inRange hmem
    rcases ih with hwq | hreach
    · exact Or.inl (hWcl q q' hwq hm hmem hu)
    · by_cases hw' : W q'
      · exact Or.inl hw'
      · right
        refine ReachU.step hreach hm hmem ?_
        unfold Unrev at hu ⊢
        rw [hWn q' hq'r.1 hq'r.2 hw']
        exact hu

/-- Peeling one reveal off the cascade: reaching from an unrevealed `0` cell
`p` in state `u` is reaching `p` itself, or reaching from one of its
neighbours in the state `u1` in which `p` has just been revealed. -/
theorem ReachU_glue {M u u1 : Board} {R C : Nat} {p : Nat × Nat}
    (hu : Unrev u p) (h0 : M.getTile p.1 p.2 = 0)
    (hu1 : ∀ q : Nat × Nat, q.1 < R → q.2 < C → q ≠ p →
      u1.getTile q.1 q.2 = u.getTile q.1 q.2)
    (hup : ¬ Unrev u1 p) (q : Nat × Nat) :
    ReachU M u R C p q ↔
      (q = p ∨ ∃ x ∈ boundaryCells R C p.1 p.2, ReachU M u1 R C x q) := by
  constructor
  · intro h
    induction h with
    | refl _ => exact Or.inl rfl
    | step hr hm hmem hu' ih =>
      rename_i qq q'
      have hq'r : q'.1 < R ∧ q'.2 < C := boundaryCells_inRange hmem
      by_cases hq'p : q' = p
      · exact Or.inl hq'p
      · right
        have hu1q' : Unrev u1 q' := by
          unfold Unrev at hu' ⊢
          rw [hu1 q' hq'r.1 hq'r.2 hq'p]
          exact hu'
        rcases ih with he | ⟨x, hx, hrx⟩
        · rw [he] at hmem
          exact ⟨q', hmem, ReachU.refl hu1q'⟩
        · exact ⟨x, hx, ReachU.step hrx hm hmem hu1q'⟩
  · intro h
    rcases h with he | ⟨x, hx, hrx⟩
    · rw [he]
      exact ReachU.refl hu
    · have hxr : x.1 < R ∧ x.2 < C := boundaryCells_inRange hx
      induction hrx with
      | refl hu' =>
        have hxp : x ≠ p := by
          intro he
          rw [he] at hu'
          exact hup hu'
        have hux : Unrev u x := by
          unfold Unrev at hu' ⊢
          rw [← hu1 x hxr.1 hxr.2 hxp]
          exact hu'
        exact ReachU.step (ReachU.refl hu) h0 hx hux
      | step hr hm hmem hu' ih =>
        rename_i qq q'
        have hq'r : q'.1 < R ∧ q'.2 < C := boundaryCells_inRange hmem
        have hq'p : q' ≠ p := by
          intro he
          rw [he] at hu'
          exact hup hu'
        have huq' : Unrev u q' := by
          unfold Unrev at hu' ⊢
          rw [← hu1 q' hq'r.1 hq'r.2 hq'p]
          exact hu'
        exact ReachU.step ih hm hmem huq'

/-! ### Reveal: the flood-fill characterization -/

theorem unrevCount_mono {u v : Board} {R C : Nat}
    (h : ∀ q : Nat × Nat, q.1 < R → q.2 < C → Unrev v q → Unrev u q) :
    unrevCount v R C ≤ unrevCount u R C := by
  unfold unrevCount
  apply List.countP_mono_left
  intro x hx hvx
  have hxr := mem_rowMajor.mp hx
  exact decide_eq_true (h x hxr.1 hxr.2 (of_decide_eq_true hvx))

theorem unrevCount_write {u : Board} {R C row col : Nat} {v : Int}
    (hR : u.rowCount = R) (hC : u.colCount = C) (hWF : u.WF)
    (h1 : row < R) (h2 : col < C) (hup : Unrev u (row, col))
    (hv : ¬ (v = Tile.UNKNOWN ∨ v = Tile.FLAG)) :
    unrevCount (u.setTile row col v) R C + 1 = unrevCount u R C := by
  have hidx : u.getIndex_ row col < u.data_.length := by
    have hlt := Board.getIndex_lt (b := u)
      (show row < u.rowCount by omega) (show col < u.colCount by omega)
    unfold Board.WF at hWF
    omega
  have h := countP_update (rowMajor R C) (row, col)
    (fun x => decide (Unrev (u.setTile row col v) x))
    (fun x => decide (Unrev u x))
    (count_rowMajor (p := (row, col)) h1 h2)
    (fun x hx hne => by
      have hxr := mem_rowMajor.mp hx
      show decide (Unrev (u.setTile row col v) x) = decide (Unrev u x)
      unfold Unrev
      simp only [Board.getTile_setTile_ne
        (Board.getIndex_ne (show col < u.colCount by omega)
          (show x.2 < u.colCount by omega) hne)])
  have hfp : decide (Unrev (u.setTile row col v) (row, col)) = false := by
    apply decide_eq_false
    unfold Unrev
    have hself : (u.setTile row col v).getTile (row, col).1 (row, col).2 = v :=
      Board.getTile_setTile_self hidx
    rw [hself]
    exact hv
  have hgp : decide (Unrev u (row, col)) = true := decide_eq_true hup
  simp only [hfp, hgp, Bool.false_eq_true, eq_self_iff_true, if_false, if_true] at h
  unfold unrevCount
  omega

/-- The cascade fold satisfies `CascadeSpec`, assuming every single reveal at
the current fuel satisfies `RevealSpec`. -/
theorem revealFold_char (R C : Nat) (fuel : Nat)
    (ihf : ∀ (g : Game) (row col : Nat), GoodGame g R C → row < R → col < C →
      unrevCount g.userBoard.board R C < fuel →
      RevealSpec R C g row col (Game.revealTileF fuel g row col).1) :
    ∀ (ns : List (Nat × Nat)) (g : Game), GoodGame g R C →
      (∀ x ∈ ns, x.1 < R ∧ x.2 < C) →
      unrevCount g.userBoard.board R C < fuel →
      CascadeSpec R C g ns
        (forEachOn (fun gg : Game => gg.mineBoard.board)
          (fun gg r c _t => Game.revealTileF fuel gg r c) ns g).1 := by
  intro ns
  induction ns with
  | nil =>
    intro g hg hns hfu
    rw [forEachOn_nil]
    refine ⟨rfl, hg, ?_⟩
    intro q h1 h2
    constructor
    · rintro ⟨x, hx, _⟩
      cases hx
    · intro _
      rfl
  | cons x t ih =>
    intro g hg hns hfu
    obtain ⟨r, c⟩ := x
    have hx1 : r < R := (hns (r, c) (List.mem_cons_self _ _)).1
    have hx2 : c < C := (hns (r, c) (List.mem_cons_self _ _)).2
    rw [forEachOn_cons, if_neg (revealTileF_snd_ne_false fuel g r c)]
    rcases ihf g r c hg hx1 hx2 hfu with ⟨hM2, hg2, hq2⟩
    have hmono : unrevCount (Game.revealTileF fuel g r c).1.userBoard.board R C ≤
        unrevCount g.userBoard.board R C := by
      apply unrevCount_mono
      intro q hq1 hq2' hun
      by_cases hw : ReachU g.mineBoard.board g.userBoard.board R C (r, c) q
      · exact ReachU_unrev hw
      · unfold Unrev at hun ⊢
        rw [← (hq2 q hq1 hq2').2 hw]
        exact hun
    rcases ih (Game.revealTileF fuel g r c).1 hg2
      (fun y hy => hns y (List.mem_cons.mpr (Or.inr hy))) (by omega) with ⟨hM3, hg3, hq3⟩
    rw [hM2] at hq3
    refine ⟨by rw [hM3, hM2], hg3, ?_⟩
    intro q h1 h2
    have hWs : ∀ z : Nat × Nat, z.1 < R → z.2 < C →
        ReachU g.mineBoard.board g.userBoard.board R C (r, c) z →
        (Game.revealTileF fuel g r c).1.userBoard.board.getTile z.1 z.2 =
          g.mineBoard.board.getTile z.1 z.2 := fun z a b hw => (hq2 z a b).1 hw
    have hWn : ∀ z : Nat × Nat, z.1 < R → z.2 < C →
        ¬ ReachU g.mineBoard.board g.userBoard.board R C (r, c) z →
        (Game.revealTileF fuel g r c).1.userBoard.board.getTile z.1 z.2 =
          g.userBoard.board.getTile z.1 z.2 := fun z a b hw => (hq2 z a b).2 hw
    have hWcl : ∀ z z' : Nat × Nat,
        ReachU g.mineBoard.board g.userBoard.board R C (r, c) z →
        g.mineBoard.board.getTile z.1 z.2 = 0 →
        z' ∈ boundaryCells R C z.1 z.2 → Unrev g.userBoard.board z' →
        ReachU g.mineBoard.board g.userBoard.board R C (r, c) z' :=
      fun z z' hw hm hmem hu => ReachU.step hw hm hmem hu
    constructor
    · intro hEx
      rcases hEx with ⟨y, hy, hry⟩
      rcases List.mem_cons.mp hy with he | hyt
      · -- y is the head: q is in W
        have hwq : ReachU g.mineBoard.board g.userBoard.board R C (r, c) q := by
          rw [he] at hry
          exact hry
        by_cases hex2 : ∃ z ∈ t,
            ReachU g.mineBoard.board (Game.revealTileF fuel g r c).1.userBoard.board R C z q
        · exact (hq3 q h1 h2).1 hex2
        · rw [(hq3 q h1 h2).2 hex2]
          exact hWs q h1 h2 hwq
      · by_cases hwq : ReachU g.mineBoard.board g.userBoard.board R C (r, c) q
        · by_cases hex2 : ∃ z ∈ t,
              ReachU g.mineBoard.board (Game.revealTileF fuel g r c).1.userBoard.board R C z q
          · exact (hq3 q h1 h2).1 hex2
          · rw [(hq3 q h1 h2).2 hex2]
            exact hWs q h1 h2 hwq
        · have hyr : y.1 < R ∧ y.2 < C := hns y (List.mem_cons.mpr (Or.inr hyt))
          rcases ReachU_grow hWs hWn hWcl hyr hry with hw | hr2
          · exact absurd hw hwq
          · exact (hq3 q h1 h2).1 ⟨y, hyt, hr2⟩
    · intro hNEx
      have hnw : ¬ ReachU g.mineBoard.board g.userBoard.board R C (r, c) q :=
        fun hw => hNEx ⟨(r, c), List.mem_cons_self _ _, hw⟩
      have hnex2 : ¬ ∃ z ∈ t,
          ReachU g.mineBoard.board (Game.revealTileF fuel g r c).1.userBoard.board R C z q := by
        rintro ⟨z, hz, hrz⟩
        have hzr : z.1 < R ∧ z.2 < C := hns z (List.mem_cons.mpr (Or.inr hz))
        rcases ReachU_shrink hWs hWn hzr hrz with hw | hr2
        · exact hnw hw
        · exact hNEx ⟨z, List.mem_cons.mpr (Or.inr hz), hr2⟩
      rw [(hq3 q h1 h2).2 hnex2]
      exact hWn q h1 h2 hnw

/-- The flood-fill characterization of `revealTile`: with sufficient fuel,
one call reveals exactly the reach set of its target and touches nothing
else. -/
theorem revealTileF_char (R C : Nat) :
    ∀ (fuel : Nat) (g : Game) (row col : Nat), GoodGame g R C → row < R → col < C →
      unrevCount g.userBoard.board R C < fuel →
      RevealSpec R C g row col (Game.revealTileF fuel g row col).1 := by
  intro fuel
  induction fuel with
  | zero =>
    intro g row col hg h1 h2 hfu
    omega
  | succ fuel ih =>
    intro g row col hg h1 h2 hfu
    obtain ⟨hmR, hmC, hmW, huR, huC, huW⟩ := hg
    rw [revealTileF_succ]
    by_cases hguard : g.userBoard.getTile row col ≠ Tile.UNKNOWN ∧
        g.userBoard.getTile row col ≠ Tile.FLAG
    · rw [if_pos hguard]
      refine ⟨rfl, ⟨hmR, hmC, hmW, huR, huC, huW⟩, ?_⟩
      intro q hq1 hq2
      have hnr : ¬ ReachU g.mineBoard.board g.userBoard.board R C (row, col) q := by
        intro h
        have hst : Unrev g.userBoard.board (row, col) := ReachU_start h
        unfold Unrev at hst
        rcases hst with hh | hh
        · exact hguard.1 hh
        · exact hguard.2 hh
      exact ⟨fun h => absurd h hnr, fun _ => rfl⟩
    · rw [if_neg hguard]
      have hun : Unrev g.userBoard.board (row, col) := by
        unfold Unrev
        by_cases hU : g.userBoard.getTile row col = Tile.UNKNOWN
        · exact Or.inl hU
        · by_cases hF : g.userBoard.getTile row col = Tile.FLAG
          · exact Or.inr hF
          · exact absurd ⟨hU, hF⟩ hguard
      have hidx : g.userBoard.board.getIndex_ row col < g.userBoard.board.data_.length := by
        have hlt := Board.getIndex_lt (b := g.userBoard.board)
          (show row < g.userBoard.board.rowCount by omega)
          (show col < g.userBoard.board.colCount by omega)
        unfold Board.WF at huW
        omega
      have hboard : (g.userBoard.setTile row col (g.mineBoard.getTile row col)).board =
          g.userBoard.board.setTile row col (g.mineBoard.getTile row col) := by
        rw [UserBoard.setTile_eq hidx]
      have hg1 : GoodGame
          { g with userBoard := g.userBoard.setTile row col (g.mineBoard.getTile row col) }
          R C := by
        refine ⟨hmR, hmC, hmW, ?_, ?_, ?_⟩
        · show (g.userBoard.setTile row col (g.mineBoard.getTile row col)).board.rowCount = R
          rw [hboard, Board.setTile_rowCount]
          exact huR
        · show (g.userBoard.setTile row col (g.mineBoard.getTile row col)).board.colCount = C
          rw [hboard, Board.setTile_colCount]
          exact huC
        · show (g.userBoard.setTile row col (g.mineBoard.getTile row col)).board.WF
          rw [hboard]
          unfold Board.WF
          rw [Board.setTile_rowCount, Board.setTile_colCount, Board.setTile_length hidx]
          exact huW
      have hwrite_self :
          (g.userBoard.setTile row col (g.mineBoard.getTile row col)).board.getTile row col =
            g.mineBoard.board.getTile row col := by
        rw [hboard, Board.getTile_setTile_self hidx]
        rfl
      have hwrite_ne : ∀ z : Nat × Nat, z.2 < C → z ≠ (row, col) →
          (g.userBoard.setTile row col (g.mineBoard.getTile row col)).board.getTile z.1 z.2 =
            g.userBoard.board.getTile z.1 z.2 := by
        intro z hz2 hzp
        rw [hboard, Board.getTile_setTile_ne (Board.getIndex_ne
          (show col < g.userBoard.board.colCount by omega)
          (show z.2 < g.userBoard.board.colCount by omega) hzp)]
      by_cases hmine : g.mineBoard.getTile row col = Tile.MINE
      · rw [if_pos hmine]
        refine ⟨rfl, hg1, ?_⟩
        intro q hq1 hq2
        have hz : g.mineBoard.board.getTile (row, col).1 (row, col).2 ≠ 0 := by
          have hm2 : g.mineBoard.board.getTile (row, col).1 (row, col).2 = Tile.MINE := hmine
          rw [hm2]
          decide
        constructor
        · intro hrch
          have hqp : q = (row, col) := ReachU_of_nonzero hz hrch
          rw [hqp]
          exact hwrite_self
        · intro hnr
          have hqp : q ≠ (row, col) := fun he => hnr (by rw [he]; exact ReachU.refl hun)
          exact hwrite_ne q hq2 hqp
      · rw [if_neg hmine]
        by_cases hzero : g.mineBoard.getTile row col = 0
        · rw [if_pos hzero]
          unfold Board.forEachBoundaryTile
          rw [show ({ g with userBoard :=
              g.userBoard.setTile row col (g.mineBoard.getTile row col) } :
              Game).mineBoard.board.rowCount = R from hmR,
            show ({ g with userBoard :=
              g.userBoard.setTile row col (g.mineBoard.getTile row col) } :
              Game).mineBoard.board.colCount = C from hmC]
          have hcnt : unrevCount
              (g.userBoard.setTile row col (g.mineBoard.getTile row col)).board R C + 1 =
              unrevCount g.userBoard.board R C := by
            rw [hboard]
            refine unrevCount_write huR huC huW h1 h2 hun ?_
            intro hcon
            rw [hzero] at hcon
            rcases hcon with hh | hh <;> exact absurd hh (by decide)
          have hfold := revealFold_char R C fuel ih (boundaryCells R C row col)
            { g with userBoard := g.userBoard.setTile row col (g.mineBoard.getTile row col) }
            hg1 (fun x hx => boundaryCells_inRange hx)
            (show unrevCount
              (g.userBoard.setTile row col (g.mineBoard.getTile row col)).board R C < fuel
              by omega)
          rcases hfold with ⟨hMf, hgf, hqf⟩
          dsimp only at hMf hqf
          have hu1unrev : ¬ Unrev
              (g.userBoard.setTile row col (g.mineBoard.getTile row col)).board (row, col) := by
            intro hcon
            unfold Unrev at hcon
            have h0 : (g.userBoard.setTile row col
                (g.mineBoard.getTile row col)).board.getTile (row, col).1 (row, col).2 = 0 := by
              rw [hwrite_self]
              exact hzero
            rw [h0] at hcon
            rcases hcon with hh | hh <;> exact absurd hh (by decide)
          have hglue := @ReachU_glue g.mineBoard.board g.userBoard.board
            (g.userBoard.setTile row col (g.mineBoard.getTile row col)).board R C (row, col)
            hun (show g.mineBoard.board.getTile (row, col).1 (row, col).2 = 0 from hzero)
            (fun z hz1 hz2 hzp => hwrite_ne z hz2 hzp) hu1unrev
          refine ⟨hMf, hgf, ?_⟩
          intro q hq1 hq2
          constructor
          · intro hrch
            rcases (hglue q).mp hrch with hqp | hex
            · rw [hqp]
              have hnx : ¬ ∃ x ∈ boundaryCells R C row col,
                  ReachU g.mineBoard.board
                    (g.userBoard.setTile row col (g.mineBoard.getTile row col)).board R C
                    x (row, col) := by
                rintro ⟨x, hx, hrx⟩
                exact hu1unrev (ReachU_unrev hrx)
              have hres := ((hqf (row, col) h1 h2).2 hnx)
              rw [hres, hwrite_self]
            · exact (hqf q hq1 hq2).1 hex
          · intro hnr
            rw [hglue q] at hnr
            push_neg at hnr
            rw [(hqf q hq1 hq2).2 (by
              rintro ⟨x, hx, hrx⟩
              exact absurd hrx (hnr.2 x hx))]
            exact hwrite_ne q hq2 hnr.1
        · rw [if_neg hzero]
          refine ⟨rfl, hg1, ?_⟩
          intro q hq1 hq2
          have hz : g.mineBoard.board.getTile (row, col).1 (row, col).2 ≠ 0 := hzero
          constructor
          · intro hrch
            have hqp : q = (row, col) := ReachU_of_nonzero hz hrch
            rw [hqp]
            exact hwrite_self
          · intro hnr
            have hqp : q ≠ (row, col) := fun he => hnr (by rw [he]; exact ReachU.refl hun)
            exact hwrite_ne q hq2 hqp

/-- `Game.revealTile` always runs with sufficient fuel: the cell total bounds
the number of unrevealed cells. -/
theorem revealTile_char {R C : Nat} {g : Game} {row col : Nat}
    (hg : GoodGame g R C) (h1 : row < R) (h2 : col < C) :
    RevealSpec R C g row col (g.revealTile row col).1 := by
  unfold Game.revealTile
  have hbound : unrevCount g.userBoard.board R C ≤ R * C := by
    unfold unrevCount
    calc (rowMajor R C).countP (fun p => decide (Unrev g.userBoard.board p)) ≤
        (rowMajor R C).length := List.countP_le_length _
      _ = R * C := rowMajor_length R C
  rw [show g.mineBoard.board.rowCount * g.mineBoard.board.colCount + 1 = R * C + 1 by
    rw [hg.1, hg.2.1]]
  exact revealTileF_char R C (R * C + 1) g row col hg h1 h2 (by omega)

/-! ### Region and ring -/

theorem ZeroRegion_zero {M : Board} {p q : Nat × Nat} (h : ZeroRegion M p q) :
    M.getTile q.1 q.2 = 0 := by
  induction h with
  | refl h0 => exact h0
  | step hr hadj h1 h2 h0 ih => exact h0

theorem ZeroRegion_to_ReachU {M u : Board} {p : Nat × Nat}
    (hall : ∀ q : Nat × Nat, q.1 < M.rowCount → q.2 < M.colCount → Unrev u q)
    (hp1 : p.1 < M.rowCount) (hp2 : p.2 < M.colCount) {q : Nat × Nat}
    (h : ZeroRegion M p q) : ReachU M u M.rowCount M.colCount p q := by
  induction h with
  | refl h0 => exact ReachU.refl (hall p hp1 hp2)
  | step hr hadj h1 h2 h0 ih =>
    rename_i z z'
    have hz0 : M.getTile z.1 z.2 = 0 := ZeroRegion_zero hr
    have hmem : z' ∈ boundaryCells M.rowCount M.colCount z.1 z.2 :=
      mem_boundaryCells_iff_adjacent.mpr ⟨h1, h2, hadj⟩
    exact ReachU.step ih hz0 hmem (hall z' h1 h2)

/-- On an entirely unrevealed player board, the reach set of a `0` cell is
exactly the zero region together with its bounding ring. -/
theorem ReachU_iff_regionRing {M u : Board} {p : Nat × Nat}
    (hall : ∀ q : Nat × Nat, q.1 < M.rowCount → q.2 < M.colCount → Unrev u q)
    (hp1 : p.1 < M.rowCount) (hp2 : p.2 < M.colCount)
    (hp0 : M.getTile p.1 p.2 = 0) (q : Nat × Nat) :
    ReachU M u M.rowCount M.colCount p q ↔ (ZeroRegion M p q ∨ ZeroRing M p q) := by
  constructor
  · intro h
    induction h with
    | refl _ => exact Or.inl (ZeroRegion.refl hp0)
    | step hr hm hmem hu ih =>
      rename_i z z'
      have hz'r := boundaryCells_inRange hmem
      have hadj : adjacent z z' := (mem_boundaryCells_iff_adjacent.mp hmem).2.2
      rcases ih with hreg | hring
      · by_cases h0' : M.getTile z'.1 z'.2 = 0
        · exact Or.inl (ZeroRegion.step hreg hadj hz'r.1 hz'r.2 h0')
        · right
          refine ⟨fun hreg' => h0' (ZeroRegion_zero hreg'), hz'r.1, hz'r.2, z, hreg, hadj⟩
      · rcases hring with ⟨hnreg, hz1, hz2, w, hw, hadjw⟩
        exact absurd (ZeroRegion.step hw hadjw hz1 hz2 hm) hnreg
  · intro h
    rcases h with hreg | hring
    · exact ZeroRegion_to_ReachU hall hp1 hp2 hreg
    · rcases hring with ⟨hnreg, hq1, hq2, z, hz, hadj⟩
      have hz0 : M.getTile z.1 z.2 = 0 := ZeroRegion_zero hz
      have hmem : q ∈ boundaryCells M.rowCount M.colCount z.1 z.2 :=
        mem_boundaryCells_iff_adjacent.mpr ⟨hq1, hq2, hadj⟩
      exact ReachU.step (ZeroRegion_to_ReachU hall hp1 hp2 hz) hz0 hmem (hall q hq1 hq2)

/-- Ring cells are neither `0` cells nor (under the adjacency invariant)
mines. -/
theorem ZeroRing_nonzero_nonmine {M : Board} (hadj : AdjacencyInv M) {p q : Nat × Nat}
    (hp1 : p.1 < M.rowCount) (hp2 : p.2 < M.colCount)
    (h : ZeroRing M p q) : M.getTile q.1 q.2 ≠ 0 ∧ M.getTile q.1 q.2 ≠ Tile.MINE := by
  rcases h with ⟨hnreg, hq1, hq2, z, hz, hadjzq⟩
  have hz0 : M.getTile z.1 z.2 = 0 := ZeroRegion_zero hz
  have hzr : z.1 < M.rowCount ∧ z.2 < M.colCount := by
    induction hz with
    | refl _ => exact ⟨hp1, hp2⟩
    | step hr ha h1 h2 h0 ih => exact ⟨h1, h2⟩
  constructor
  · intro h0'
    exact hnreg (ZeroRegion.step hz hadjzq hq1 hq2 h0')
  · intro hm
    have hmem : q ∈ boundaryCells M.rowCount M.colCount z.1 z.2 :=
      mem_boundaryCells_iff_adjacent.mpr ⟨hq1, hq2, hadjzq⟩
    exact zero_no_mine_neighbor hadj hzr.1 hzr.2 hz0 hmem hm


/-! ### Restoring a cell -/

theorem set_getD_self (l : List Int) : ∀ n : Nat, n < l.length → l.set n (l.getD n 0) = l := by
  induction l with
  | nil => intro n h; simp at h
  | cons a t ih =>
    intro n h
    cases n with
    | zero => rfl
    | succ m =>
      show a :: t.set m (t.getD m 0) = a :: t
      rw [ih m (by simpa using h)]

theorem Board.setTile_restore {b : Board} {row col : Nat} {t : Int}
    (h : b.getIndex_ row col < b.data_.length) :
    (b.setTile row col t).setTile row col (b.getTile row col) = b := by
  rw [Board.setTile_eq_set h]
  rw [@Board.setTile_eq_set
    (Board.mk b.rowCount b.colCount (b.data_.set (b.getIndex_ row col) t)) row col
    (b.getTile row col)
    (show (Board.mk b.rowCount b.colCount
        (b.data_.set (b.getIndex_ row col) t)).getIndex_ row col <
        (Board.mk b.rowCount b.colCount
          (b.data_.set (b.getIndex_ row col) t)).data_.length by
      show b.getIndex_ row col < (b.data_.set (b.getIndex_ row col) t).length
      simpa using h)]
  show ({ rowCount := b.rowCount, colCount := b.colCount,
          data_ := (b.data_.set (b.getIndex_ row col) t).set (b.getIndex_ row col)
            (b.data_.getD (b.getIndex_ row col) 0) } : Board) = b
  rw [List.set_set, set_getD_self _ _ h]

theorem UserBoard.getTile_of_setTile_self {u : UserBoard} {row col : Nat} {t : Int}
    (h : u.board.getIndex_ row col < u.board.data_.length) :
    (u.setTile row col t).getTile row col = t := by
  rw [UserBoard.setTile_eq h]
  exact Board.getTile_setTile_self h

/-- Flagging an `UNKNOWN` cell and then unflagging it restores the whole
player board, counters included. -/
theorem UserBoard.flag_unflag {u : UserBoard} {row col : Nat}
    (hidx : u.board.getIndex_ row col < u.board.data_.length)
    (hU : u.getTile row col = Tile.UNKNOWN) :
    (u.setTile row col Tile.FLAG).setTile row col Tile.UNKNOWN = u := by
  have hU' : u.board.getTile row col = Tile.UNKNOWN := hU
  have hset1 := @UserBoard.setTile_eq u row col Tile.FLAG hidx
  rw [if_neg (show ¬ u.getTile row col = Tile.FLAG by rw [hU]; decide), if_pos rfl,
    if_pos hU, if_neg (show ¬ Tile.FLAG = Tile.UNKNOWN by decide)] at hset1
  rw [hset1]
  have hidx2 : (UserBoard.mk (u.board.setTile row col Tile.FLAG)
      (u.flagCount - 0 + 1) (u.unknownCount - 1 + 0)).board.getIndex_ row col <
      (UserBoard.mk (u.board.setTile row col Tile.FLAG)
        (u.flagCount - 0 + 1) (u.unknownCount - 1 + 0)).board.data_.length := by
    show (u.board.setTile row col Tile.FLAG).getIndex_ row col <
      (u.board.setTile row col Tile.FLAG).data_.length
    rw [Board.setTile_eq_set hidx]
    show u.board.getIndex_ row col < (u.board.data_.set (u.board.getIndex_ row col) Tile.FLAG).length
    simpa using hidx
  have hmid : (UserBoard.mk (u.board.setTile row col Tile.FLAG)
      (u.flagCount - 0 + 1) (u.unknownCount - 1 + 0)).getTile row col = Tile.FLAG :=
    Board.getTile_setTile_self hidx
  rw [UserBoard.setTile_eq hidx2]
  dsimp only
  rw [if_pos hmid, if_neg (show ¬ Tile.UNKNOWN = Tile.FLAG by decide),
    if_neg (show ¬ (UserBoard.mk (u.board.setTile row col Tile.FLAG)
      (u.flagCount - 0 + 1) (u.unknownCount - 1 + 0)).getTile row col = Tile.UNKNOWN by
        rw [hmid]; decide),
    if_pos rfl]
  show UserBoard.mk ((u.board.setTile row col Tile.FLAG).setTile row col Tile.UNKNOWN)
      (u.flagCount - 0 + 1 - 1 + 0) (u.unknownCount - 1 + 0 - 0 + 1) =
    UserBoard.mk u.board u.flagCount u.unknownCount
  rw [UserBoard.mk.injEq]
  refine ⟨?_, by omega, by omega⟩
  rw [← hU']
  exact Board.setTile_restore hidx

/-- Unflagging a `FLAG` cell and then reflagging it restores the whole
player board, counters included. -/
theorem UserBoard.unflag_flag {u : UserBoard} {row col : Nat}
    (hidx : u.board.getIndex_ row col < u.board.data_.length)
    (hF : u.getTile row col = Tile.FLAG) :
    (u.setTile row col Tile.UNKNOWN).setTile row col Tile.FLAG = u := by
  have hF' : u.board.getTile row col = Tile.FLAG := hF
  have hset1 := @UserBoard.setTile_eq u row col Tile.UNKNOWN hidx
  rw [if_pos hF, if_neg (show ¬ Tile.UNKNOWN = Tile.FLAG by decide),
    if_neg (show ¬ u.getTile row col = Tile.UNKNOWN by rw [hF]; decide), if_pos rfl] at hset1
  rw [hset1]
  have hidx2 : (UserBoard.mk (u.board.setTile row col Tile.UNKNOWN)
      (u.flagCount - 1 + 0) (u.unknownCount - 0 + 1)).board.getIndex_ row col <
      (UserBoard.mk (u.board.setTile row col Tile.UNKNOWN)
        (u.flagCount - 1 + 0) (u.unknownCount - 0 + 1)).board.data_.length := by
    show (u.board.setTile row col Tile.UNKNOWN).getIndex_ row col <
      (u.board.setTile row col Tile.UNKNOWN).data_.length
    rw [Board.setTile_eq_set hidx]
    show u.board.getIndex_ row col <
      (u.board.data_.set (u.board.getIndex_ row col) Tile.UNKNOWN).length
    simpa using hidx
  have hmid : (UserBoard.mk (u.board.setTile row col Tile.UNKNOWN)
      (u.flagCount - 1 + 0) (u.unknownCount - 0 + 1)).getTile row col = Tile.UNKNOWN :=
    Board.getTile_setTile_self hidx
  rw [UserBoard.setTile_eq hidx2]
  dsimp only
  rw [if_neg (show ¬ (UserBoard.mk (u.board.setTile row col Tile.UNKNOWN)
      (u.flagCount - 1 + 0) (u.unknownCount - 0 + 1)).getTile row col = Tile.FLAG by
        rw [hmid]; decide),
    if_pos rfl, if_pos hmid, if_neg (show ¬ Tile.FLAG = Tile.UNKNOWN by decide)]
  show UserBoard.mk ((u.board.setTile row col Tile.UNKNOWN).setTile row col Tile.FLAG)
      (u.flagCount - 1 + 0 - 0 + 1) (u.unknownCount - 0 + 1 - 1 + 0) =
    UserBoard.mk u.board u.flagCount u.unknownCount
  rw [UserBoard.mk.injEq]
  refine ⟨?_, by omega, by omega⟩
  rw [← hF']
  exact Board.setTile_restore hidx

/-! ### Construction and write sequences of the player board -/

theorem construct_char (rows cols : Nat) :
    (UserBoard.construct rows cols).board.rowCount = rows ∧
    (UserBoard.construct rows cols).board.colCount = cols ∧
    (UserBoard.construct rows cols).board.WF ∧
    CounterInv (UserBoard.construct rows cols) := by
  rw [construct_eq]
  have hWF : (Board.mk rows cols (List.replicate (rows * cols) Tile.UNKNOWN)).WF := by
    show (List.replicate (rows * cols) Tile.UNKNOWN).length = rows * cols
    simp
  refine ⟨rfl, rfl, hWF, ?_⟩
  unfold CounterInv flagCells unknownCells UserBoard.getTile
  have hbF := countP_getTile_eq_data (Board.mk rows cols (List.replicate (rows * cols)
    Tile.UNKNOWN)) hWF (fun v => decide (v = Tile.FLAG))
  have hbU := countP_getTile_eq_data (Board.mk rows cols (List.replicate (rows * cols)
    Tile.UNKNOWN)) hWF (fun v => decide (v = Tile.UNKNOWN))
  dsimp only at hbF hbU ⊢
  rw [hbF, hbU, List.countP_replicate, List.countP_replicate]
  rw [if_neg (by decide), if_pos (by decide)]
  constructor
  · simp
  · push_cast
    ring

theorem applyWrites_cons (u : UserBoard) (w : Nat × Nat × Int) (t : List (Nat × Nat × Int)) :
    u.applyWrites (w :: t) = (u.setTile w.1 w.2.1 w.2.2).applyWrites t := rfl

theorem applyWrites_char {rows cols : Nat} :
    ∀ (ws : List (Nat × Nat × Int)) (u : UserBoard),
      (∀ w ∈ ws, w.1 < rows ∧ w.2.1 < cols) →
      u.board.rowCount = rows → u.board.colCount = cols → u.board.WF → CounterInv u →
      (u.applyWrites ws).board.rowCount = rows ∧ (u.applyWrites ws).board.colCount = cols ∧
      (u.applyWrites ws).board.WF ∧ CounterInv (u.applyWrites ws) := by
  intro ws
  induction ws with
  | nil =>
    intro u _ hR hC hWF hInv
    exact ⟨hR, hC, hWF, hInv⟩
  | cons w t ih =>
    intro u hws hR hC hWF hInv
    have hw := hws w (List.mem_cons_self _ _)
    have h1 : w.1 < u.board.rowCount := by rw [hR]; exact hw.1
    have h2 : w.2.1 < u.board.colCount := by rw [hC]; exact hw.2
    have hd := @setTile_dims u w.1 w.2.1 w.2.2 hWF h1 h2
    have hI := @setTile_counterInv u w.1 w.2.1 w.2.2 hWF h1 h2 hInv
    rw [applyWrites_cons]
    exact ih (u.setTile w.1 w.2.1 w.2.2) (fun x hx => hws x (List.mem_cons_of_mem _ hx))
      (hd.1.trans hR) (hd.2.1.trans hC) hd.2.2 hI



/-! ### The chord loop of revealUnknownAdjacent -/

theorem countFlagsFold (b : Board) :
    ∀ (ps : List (Nat × Nat)) (n : Int),
      forEachOn (fun _ : Int => b)
        (fun n _r _c t => if t = Tile.FLAG then (n + 1, JSVal.undef) else (n, JSVal.undef)) ps n =
      (n + (ps.countP (fun q => decide (b.getTile q.1 q.2 = Tile.FLAG)) : Int), true) := by
  intro ps
  induction ps with
  | nil =>
    intro n
    rw [forEachOn_nil]
    simp
  | cons p t ih =>
    intro n
    obtain ⟨r, c⟩ := p
    rw [forEachOn_cons]
    by_cases hf : b.getTile r c = Tile.FLAG
    · rw [if_pos hf]
      dsimp only
      rw [if_neg (show ¬ JSVal.undef = JSVal.boolean false from fun h => JSVal.noConfusion h)]
      rw [ih]
      have hcnt : ((r, c) :: t).countP (fun q => decide (b.getTile q.1 q.2 = Tile.FLAG)) =
          t.countP (fun q => decide (b.getTile q.1 q.2 = Tile.FLAG)) + 1 := by
        rw [List.countP_cons]
        dsimp only
        rw [if_pos (decide_eq_true hf)]
      rw [hcnt, Prod.mk.injEq]
      refine ⟨by push_cast; ring, rfl⟩
    · rw [if_neg hf]
      dsimp only
      rw [if_neg (show ¬ JSVal.undef = JSVal.boolean false from fun h => JSVal.noConfusion h)]
      rw [ih]
      have hcnt : ((r, c) :: t).countP (fun q => decide (b.getTile q.1 q.2 = Tile.FLAG)) =
          t.countP (fun q => decide (b.getTile q.1 q.2 = Tile.FLAG)) := by
        rw [List.countP_cons]
        dsimp only
        rw [if_neg (by simpa using hf), Nat.add_zero]
      rw [hcnt]

theorem chordSpec_nil (g : Game) : chordSpec g [] = (g, true) := rfl

theorem chordSpec_cons (g : Game) (r c : Nat) (ps : List (Nat × Nat)) :
    chordSpec g ((r, c) :: ps) =
      if g.userBoard.board.getTile r c = Tile.UNKNOWN then
        if g.mineBoard.board.getTile r c = Tile.MINE then ((g.revealTile r c).1, false)
        else chordSpec (g.revealTile r c).1 ps
      else chordSpec g ps := rfl

/-- The second fold of `revealUnknownAdjacent` is exactly the chord walk of
the specification: neighbours currently `UNKNOWN` are revealed in order, a
mine hit returns the literal `false` (because an `Error` return is loosely
equal to `null` exactly when it is `null` or `undefined`) and so stops the
iteration, keeping the reveals already performed. -/
theorem chordFold_eq :
    ∀ (ns : List (Nat × Nat)) (g : Game),
      forEachOn (fun gg : Game => gg.userBoard.board)
        (fun gg r c userTile =>
          if userTile = Tile.UNKNOWN then
            ((gg.revealTile r c).1, JSVal.boolean (gg.revealTile r c).2.looseNull)
          else (gg, JSVal.undef)) ns g =
      chordSpec g ns := by
  intro ns
  induction ns with
  | nil =>
    intro g
    rw [forEachOn_nil, chordSpec_nil]
  | cons q t ih =>
    intro g
    obtain ⟨r, c⟩ := q
    rw [forEachOn_cons, chordSpec_cons]
    by_cases hu : g.userBoard.board.getTile r c = Tile.UNKNOWN
    · rw [if_pos hu, if_pos hu]
      dsimp only
      have hsnd : (g.revealTile r c).2 =
          if g.mineBoard.board.getTile r c = Tile.MINE then JSVal.err "mine revealed"
          else JSVal.null := by
        show (Game.revealTileF
          (g.mineBoard.board.rowCount * g.mineBoard.board.colCount + 1) g r c).2 = _
        rw [revealTileF_snd]
        rw [if_neg (show ¬ (g.userBoard.getTile r c ≠ Tile.UNKNOWN ∧
          g.userBoard.getTile r c ≠ Tile.FLAG) from fun hc => hc.1 hu)]
        rfl
      by_cases hm : g.mineBoard.board.getTile r c = Tile.MINE
      · rw [if_pos hm] at hsnd ⊢
        rw [hsnd]
        rw [if_pos (show JSVal.boolean (JSVal.err "mine revealed").looseNull =
          JSVal.boolean false from rfl)]
      · rw [if_neg hm] at hsnd ⊢
        rw [hsnd]
        rw [if_neg (show ¬ JSVal.boolean JSVal.null.looseNull = JSVal.boolean false by decide)]
        exact ih (g.revealTile r c).1
    · rw [if_neg hu, if_neg hu]
      dsimp only
      rw [if_neg (show ¬ JSVal.undef = JSVal.boolean false from fun h => JSVal.noConfusion h)]
      exact ih g

/-! ### The per-cell check of validate -/

/-- One callback invocation of `validate` returns something other than the
literal `false` exactly when the cell is flagged iff it is a mine. -/
theorem validate_cell (g : Game) (r c : Nat) :
    ((if g.mineBoard.board.getTile r c = Tile.MINE ∨ g.userBoard.getTile r c = Tile.FLAG then
        ((), JSVal.boolean (decide (g.mineBoard.board.getTile r c = Tile.MINE ∧
          g.userBoard.getTile r c = Tile.FLAG)))
      else ((), JSVal.undef)).2 ≠ JSVal.boolean false) ↔
      (g.userBoard.getTile r c = Tile.FLAG ↔ g.mineBoard.board.getTile r c = Tile.MINE) := by
  by_cases hm : g.mineBoard.board.getTile r c = Tile.MINE
  · by_cases hf : g.userBoard.getTile r c = Tile.FLAG
    · rw [if_pos (Or.inl hm)]
      dsimp only
      rw [decide_eq_true ⟨hm, hf⟩]
      constructor
      · intro _
        exact ⟨fun _ => hm, fun _ => hf⟩
      · intro _ h
        exact JSVal.noConfusion h (fun hb => Bool.noConfusion hb)
    · rw [if_pos (Or.inl hm)]
      dsimp only
      rw [decide_eq_false (fun hc => hf hc.2)]
      constructor
      · intro h
        exact absurd rfl h
      · intro h
        exact absurd (h.mpr hm) hf
  · by_cases hf : g.userBoard.getTile r c = Tile.FLAG
    · rw [if_pos (Or.inr hf)]
      dsimp only
      rw [decide_eq_false (fun hc => hm hc.1)]
      constructor
      · intro h
        exact absurd rfl h
      · intro h
        exact absurd (h.mp hf) hm
    · rw [if_neg (fun hc => hc.elim hm hf)]
      constructor
      · intro _
        exact ⟨fun hc => absurd hc hf, fun hc => absurd hc hm⟩
      · intro _ h
        exact JSVal.noConfusion h



/-! ### The claims -/

/-- C4: construction of the solution board is total (modelled by the
construction relation being inhabited for every requested count — the
clearing loop, the shuffle and the adjacency pass signal no error) and the
board it produces always holds exactly `min(mineCount, rowCount*colCount)`
mines: a negative requested count places none (`Int.toNat` sends it to
`0`) and a count exceeding the cell total saturates at every cell. -/
theorem setMines_mine_count_min (mines : Int) (rows cols : Nat) :
    (∃ M : MineBoard, SolutionConstructed mines rows cols M) ∧
    ∀ M : MineBoard, SolutionConstructed mines rows cols M →
      mineCells M.board = min mines.toNat (rows * cols) := by
  constructor
  · exact ⟨MineBoard.mk (MineBoard.adjacencyPass
        (Board.mk rows cols (MineBoard.clearFold rows cols mines).1.data_)) mines,
      (MineBoard.clearFold rows cols mines).1.data_, List.Perm.refl _, rfl⟩
  · intro M h
    exact (solution_board_char h).2.2.2.2.1

theorem setMines_mine_count_min_witness :
    mineCells (MineBoard.mk (Board.mk 2 2 [-1, -1, -1, -1]) 9).board =
      min (9 : Int).toNat (2 * 2) :=
  (setMines_mine_count_min 9 2 2).2 (MineBoard.mk (Board.mk 2 2 [-1, -1, -1, -1]) 9)
    ⟨[-1, -1, -1, -1], by decide, by decide⟩

/-- C5: immediately after solution construction, every in-bounds cell not
holding `MINE` stores exactly the number of its (up to 8) in-bounds
neighbouring cells that hold `MINE`. -/
theorem setMines_adjacency_exact {mines : Int} {rows cols : Nat} {M : MineBoard}
    (h : SolutionConstructed mines rows cols M) :
    ∀ r c : Nat, r < rows → c < cols → M.board.getTile r c ≠ Tile.MINE →
      M.board.getTile r c = (adjacentMines M.board r c : Int) := by
  have hc := solution_board_char h
  intro r c hr hcc hnm
  exact hc.2.2.2.2.2 r c (by rw [hc.1]; exact hr) (by rw [hc.2.1]; exact hcc) hnm

theorem setMines_adjacency_exact_witness :
    (MineBoard.mk (Board.mk 2 2 [1, 1, -1, 1]) 1).board.getTile 0 0 =
      (adjacentMines (MineBoard.mk (Board.mk 2 2 [1, 1, -1, 1]) 1).board 0 0 : Int) :=
  @setMines_adjacency_exact 1 2 2 (MineBoard.mk (Board.mk 2 2 [1, 1, -1, 1]) 1)
    ⟨[0, 0, -1, 0], by decide, by decide⟩ 0 0 (by decide) (by decide) (by decide)

/-- C6: corrected — a mine hit during the cascade neither short-circuits
the neighbourhood iteration (the recursive call returns an `Error` object,
which is not the literal `false` the iteration tests for) nor propagates to
the caller (the iteration's result is discarded and the `0` branch returns
`null` unconditionally).  The value returned by `revealTile` depends only on
its own target cell: `undefined` for a no-op on a revealed cell, the mine
error exactly when the target itself is unrevealed and a mine, and `null`
otherwise, even when the cascade reveals a mine. -/
theorem revealTile_return_characterization (g : Game) (row col : Nat) :
    (g.revealTile row col).2 =
      if Unrev g.userBoard.board (row, col) then
        if g.mineBoard.getTile row col = Tile.MINE then JSVal.err "mine revealed"
        else JSVal.null
      else JSVal.undef := by
  show (Game.revealTileF
    (g.mineBoard.board.rowCount * g.mineBoard.board.colCount + 1) g row col).2 = _
  rw [revealTileF_snd]
  by_cases h : Unrev g.userBoard.board (row, col)
  · rw [if_pos h, if_neg (show ¬ (g.userBoard.getTile row col ≠ Tile.UNKNOWN ∧
      g.userBoard.getTile row col ≠ Tile.FLAG) from
        fun hc => h.elim (fun hh => hc.1 hh) (fun hh => hc.2 hh))]
  · rw [if_neg h, if_pos (show g.userBoard.getTile row col ≠ Tile.UNKNOWN ∧
      g.userBoard.getTile row col ≠ Tile.FLAG from
        ⟨fun hh => h (Or.inl hh), fun hh => h (Or.inr hh)⟩)]

/-- C6 counterexample: on a 1×3 board whose solution row is `[MINE, 0, 7]`
(a board violating the adjacency invariant — under that invariant a `0`
cell never borders a mine, so the claimed scenario cannot arise at all on
honest boards), revealing the `0` cell at `(0, 1)` cascades into the mine
at `(0, 0)`; the iteration does not stop there — the later neighbour
`(0, 2)` is revealed too — and the outer call returns `null`, not a
mine-hit failure. -/
theorem cascade_mine_no_shortcircuit_cex :
    (Game.revealTile
      { mineBoard := { board := { rowCount := 1, colCount := 3, data_ := [-1, 0, 7] },
                       mineCount := 1 },
        userBoard := { board := { rowCount := 1, colCount := 3, data_ := [-2, -2, -2] },
                       flagCount := 0, unknownCount := 3 } } 0 1).2 = JSVal.null ∧
    (Game.revealTile
      { mineBoard := { board := { rowCount := 1, colCount := 3, data_ := [-1, 0, 7] },
                       mineCount := 1 },
        userBoard := { board := { rowCount := 1, colCount := 3, data_ := [-2, -2, -2] },
                       flagCount := 0, unknownCount := 3 } } 0 1).1.userBoard.board.data_ =
      [-1, 0, 7] := by decide

/-- C7: `revealUnknownAdjacent` (chordReveal) is a no-op returning
non-failure (`null`) when the target's player value is negative or greater
than the flagged-neighbour count; otherwise it performs exactly the chord
walk `chordSpec` over the neighbours in row-major neighbourhood order —
revealing every neighbour currently `UNKNOWN`, stopping at the first
mine-hit while keeping the reveals already performed — and returns the
mine error if and only if that walk reported failure. -/
theorem revealUnknownAdjacent_eq_chord (g : Game) (row col : Nat) :
    g.revealUnknownAdjacent row col =
      if g.userBoard.getTile row col < 0 then (g, JSVal.null)
      else if g.userBoard.getTile row col >
          (flaggedNeighbors g.userBoard.board row col : Int) then (g, JSVal.null)
      else if (chordSpec g (boundaryCells g.userBoard.board.rowCount
          g.userBoard.board.colCount row col)).2 then
        ((chordSpec g (boundaryCells g.userBoard.board.rowCount
          g.userBoard.board.colCount row col)).1, JSVal.null)
      else ((chordSpec g (boundaryCells g.userBoard.board.rowCount
          g.userBoard.board.colCount row col)).1, JSVal.err "adajcent mine revealed") := by
  unfold Game.revealUnknownAdjacent Board.forEachBoundaryTile
  dsimp only
  rw [countFlagsFold]
  dsimp only
  rw [zero_add, chordFold_eq]
  rfl

/-- C8: the cell and neighbourhood iterations stop early, returning
`false`, only when some callback invocation returns the literal boolean
`false`; a callback that never returns the literal `false` (returning
`undefined`, `0`, `null`, an `Error` object, `true`, ...) never stops the
iteration, which then visits every listed cell — the whole board in
row-major order for `forEachTile`, the in-bounds neighbours of the centre
(centre excluded) for `forEachBoundaryTile` — and yields `true`. -/
theorem forEach_strict_false_only {σ : Type} (get : σ → Board)
    (cb : σ → Nat → Nat → Int → σ × JSVal) (s : σ)
    (h : ∀ x r c t, (cb x r c t).2 ≠ JSVal.boolean false) :
    Board.forEachTile get cb s =
      ((rowMajor (get s).rowCount (get s).colCount).foldl
        (fun x p => (cb x p.1 p.2 ((get x).getTile p.1 p.2)).1) s, true) ∧
    (∀ row col : Nat,
      Board.forEachBoundaryTile get row col cb s =
        ((boundaryCells (get s).rowCount (get s).colCount row col).foldl
          (fun x p => (cb x p.1 p.2 ((get x).getTile p.1 p.2)).1) s, true)) ∧
    (∀ (f : σ → Nat → Nat → Int → σ × JSVal) (x : σ),
      (Board.forEachTile get f x).2 = false →
        ∃ y r c t, (f y r c t).2 = JSVal.boolean false) ∧
    (∀ (f : σ → Nat → Nat → Int → σ × JSVal) (x : σ) (row col : Nat),
      (Board.forEachBoundaryTile get row col f x).2 = false →
        ∃ y r c t, (f y r c t).2 = JSVal.boolean false) ∧
    (∀ (R C row col : Nat) (q : Nat × Nat),
      q ∈ boundaryCells R C row col ↔ q.1 < R ∧ q.2 < C ∧ adjacent (row, col) q) := by
  refine ⟨?_, ?_, ?_, ?_, ?_⟩
  · exact forEachOn_all get cb h _ s
  · intro row col
    exact forEachOn_all get cb h _ s
  · intro f x hfalse
    exact forEachOn_false_exists get f _ x hfalse
  · intro f x row col hfalse
    exact forEachOn_false_exists get f _ x hfalse
  · intro R C row col q
    exact mem_boundaryCells_iff_adjacent

theorem forEach_strict_false_only_witness :
    (Board.forEachTile (fun _ : Int => Board.mk 1 2 [4, 7])
        (fun n _r _c t => (n + t, JSVal.undef)) 0 =
      ((rowMajor 1 2).foldl
        (fun x p => x + (Board.mk 1 2 [4, 7]).getTile p.1 p.2) 0, true)) ∧
    (∀ row col : Nat,
      Board.forEachBoundaryTile (fun _ : Int => Board.mk 1 2 [4, 7]) row col
          (fun n _r _c t => (n + t, JSVal.undef)) 0 =
        ((boundaryCells 1 2 row col).foldl
          (fun x p => x + (Board.mk 1 2 [4, 7]).getTile p.1 p.2) 0, true)) ∧
    (∀ (f : Int → Nat → Nat → Int → Int × JSVal) (x : Int),
      (Board.forEachTile (fun _ : Int => Board.mk 1 2 [4, 7]) f x).2 = false →
        ∃ y r c t, (f y r c t).2 = JSVal.boolean false) ∧
    (∀ (f : Int → Nat → Nat → Int → Int × JSVal) (x : Int) (row col : Nat),
      (Board.forEachBoundaryTile (fun _ : Int => Board.mk 1 2 [4, 7]) row col f x).2 = false →
        ∃ y r c t, (f y r c t).2 = JSVal.boolean false) ∧
    (∀ (R C row col : Nat) (q : Nat × Nat),
      q ∈ boundaryCells R C row col ↔ q.1 < R ∧ q.2 < C ∧ adjacent (row, col) q) :=
  forEach_strict_false_only (fun _ : Int => Board.mk 1 2 [4, 7])
    (fun n _r _c t => (n + t, JSVal.undef)) 0
    (fun _ _ _ _ hh => JSVal.noConfusion hh)

/-- C9: corrected — revealing an already-revealed cell (player value
neither `UNKNOWN` nor `FLAG`) is a complete no-op on the game state, but it
returns `undefined` (a bare `return;`), whereas a trivial successful reveal
returns `null`: the two returns are distinguishable, contrary to the
specification sentence. -/
theorem revealTile_noop {g : Game} {row col : Nat}
    (h : g.userBoard.getTile row col ≠ Tile.UNKNOWN ∧
      g.userBoard.getTile row col ≠ Tile.FLAG) :
    g.revealTile row col = (g, JSVal.undef) := by
  show Game.revealTileF
    (g.mineBoard.board.rowCount * g.mineBoard.board.colCount + 1) g row col = _
  rw [revealTileF_succ, if_pos h]

theorem revealTile_noop_witness :
    Game.revealTile
      { mineBoard := { board := { rowCount := 1, colCount := 1, data_ := [0] },
                       mineCount := 0 },
        userBoard := { board := { rowCount := 1, colCount := 1, data_ := [5] },
                       flagCount := 0, unknownCount := 0 } } 0 0 =
      ({ mineBoard := { board := { rowCount := 1, colCount := 1, data_ := [0] },
                        mineCount := 0 },
         userBoard := { board := { rowCount := 1, colCount := 1, data_ := [5] },
                        flagCount := 0, unknownCount := 0 } }, JSVal.undef) :=
  revealTile_noop (by decide)

/-- C9 counterexample: a no-op reveal on a revealed cell returns
`undefined`, while a trivial successful reveal of an `UNKNOWN` non-mine,
non-zero cell returns `null`, and the two values differ — the caller can
distinguish them without re-reading grid state. -/
theorem noop_vs_success_return_cex :
    (Game.revealTile
      { mineBoard := { board := { rowCount := 1, colCount := 1, data_ := [5] },
                       mineCount := 0 },
        userBoard := { board := { rowCount := 1, colCount := 1, data_ := [7] },
                       flagCount := 0, unknownCount := 0 } } 0 0).2 = JSVal.undef ∧
    (Game.revealTile
      { mineBoard := { board := { rowCount := 1, colCount := 1, data_ := [5] },
                       mineCount := 0 },
        userBoard := { board := { rowCount := 1, colCount := 1, data_ := [-2] },
                       flagCount := 0, unknownCount := 1 } } 0 0).2 = JSVal.null ∧
    JSVal.undef ≠ JSVal.null := by decide

/-- C10: on a well-formed player board, flagging the same in-range cell
twice restores the whole game exactly — `UNKNOWN` goes to `FLAG` and back
(or `FLAG` to `UNKNOWN` and back) with both counters restored, and a
revealed cell is untouched by both calls: `flagTile` is an involution. -/
theorem flagTile_involution {g : Game} {row col : Nat}
    (hWF : g.userBoard.board.WF) (h1 : row < g.userBoard.board.rowCount)
    (h2 : col < g.userBoard.board.colCount) :
    (g.flagTile row col).flagTile row col = g := by
  have hidx : g.userBoard.board.getIndex_ row col < g.userBoard.board.data_.length := by
    have := Board.getIndex_lt h1 h2
    unfold Board.WF at hWF
    omega
  by_cases hU : g.userBoard.getTile row col = Tile.UNKNOWN
  · have hg1 : g.flagTile row col =
        { g with userBoard := g.userBoard.setTile row col Tile.FLAG } := by
      unfold Game.flagTile
      rw [if_pos hU]
    rw [hg1]
    have hmid : (g.userBoard.setTile row col Tile.FLAG).getTile row col = Tile.FLAG :=
      UserBoard.getTile_of_setTile_self hidx
    have hg2 : Game.flagTile
        { g with userBoard := g.userBoard.setTile row col Tile.FLAG } row col =
        { g with userBoard :=
          (g.userBoard.setTile row col Tile.FLAG).setTile row col Tile.UNKNOWN } := by
      unfold Game.flagTile
      dsimp only
      rw [if_neg (show ¬ (g.userBoard.setTile row col Tile.FLAG).getTile row col =
        Tile.UNKNOWN by rw [hmid]; decide), if_pos hmid]
    rw [hg2, UserBoard.flag_unflag hidx hU]
  · by_cases hF : g.userBoard.getTile row col = Tile.FLAG
    · have hg1 : g.flagTile row col =
          { g with userBoard := g.userBoard.setTile row col Tile.UNKNOWN } := by
        unfold Game.flagTile
        rw [if_neg hU, if_pos hF]
      rw [hg1]
      have hmid : (g.userBoard.setTile row col Tile.UNKNOWN).getTile row col =
          Tile.UNKNOWN :=
        UserBoard.getTile_of_setTile_self hidx
      have hg2 : Game.flagTile
          { g with userBoard := g.userBoard.setTile row col Tile.UNKNOWN } row col =
          { g with userBoard :=
            (g.userBoard.setTile row col Tile.UNKNOWN).setTile row col Tile.FLAG } := by
        unfold Game.flagTile
        dsimp only
        rw [if_pos hmid]
      rw [hg2, UserBoard.unflag_flag hidx hF]
    · have hg1 : g.flagTile row col = g := by
        unfold Game.flagTile
        rw [if_neg hU, if_neg hF]
      rw [hg1, hg1]

theorem flagTile_involution_witness :
    Game.flagTile (Game.flagTile
      { mineBoard := { board := { rowCount := 1, colCount := 1, data_ := [0] },
                       mineCount := 0 },
        userBoard := { board := { rowCount := 1, colCount := 1, data_ := [-2] },
                       flagCount := 0, unknownCount := 1 } } 0 0) 0 0 =
      { mineBoard := { board := { rowCount := 1, colCount := 1, data_ := [0] },
                       mineCount := 0 },
        userBoard := { board := { rowCount := 1, colCount := 1, data_ := [-2] },
                       flagCount := 0, unknownCount := 1 } } :=
  flagTile_involution rfl (by decide) (by decide)



/-- C3: after any sequence of in-range `setTile` writes on a freshly
constructed player board (every flag / reveal / chord-reveal action writes
only through `setTile`), `flagCount` equals the number of cells holding
`FLAG` and `unknownCount` the number holding `UNKNOWN` — including writes
that set a cell to its own current value — and the two counters plus the
revealed-cell count equal the total cell count. -/
theorem userBoard_counter_invariant {rows cols : Nat} {ws : List (Nat × Nat × Int)}
    (hws : ∀ w ∈ ws, w.1 < rows ∧ w.2.1 < cols) :
    CounterInv ((UserBoard.construct rows cols).applyWrites ws) ∧
    ((UserBoard.construct rows cols).applyWrites ws).flagCount +
        ((UserBoard.construct rows cols).applyWrites ws).unknownCount +
        (revealedCells ((UserBoard.construct rows cols).applyWrites ws) : Int) =
      ((rows * cols : Nat) : Int) := by
  have hc := construct_char rows cols
  have h := applyWrites_char ws (UserBoard.construct rows cols) hws hc.1 hc.2.1
    hc.2.2.1 hc.2.2.2
  refine ⟨h.2.2.2, ?_⟩
  have hpart := counters_partition ((UserBoard.construct rows cols).applyWrites ws)
  have hI := h.2.2.2
  unfold CounterInv at hI
  obtain ⟨hf, hu⟩ := hI
  rw [hf, hu]
  rw [h.1, h.2.1] at hpart
  push_cast
  omega

theorem userBoard_counter_invariant_witness :
    CounterInv ((UserBoard.construct 2 2).applyWrites
      [(0, 0, Tile.FLAG), (0, 1, (3 : Int)), (0, 0, Tile.FLAG), (1, 1, Tile.UNKNOWN)]) ∧
    ((UserBoard.construct 2 2).applyWrites
        [(0, 0, Tile.FLAG), (0, 1, (3 : Int)), (0, 0, Tile.FLAG),
          (1, 1, Tile.UNKNOWN)]).flagCount +
        ((UserBoard.construct 2 2).applyWrites
          [(0, 0, Tile.FLAG), (0, 1, (3 : Int)), (0, 0, Tile.FLAG),
            (1, 1, Tile.UNKNOWN)]).unknownCount +
        (revealedCells ((UserBoard.construct 2 2).applyWrites
          [(0, 0, Tile.FLAG), (0, 1, (3 : Int)), (0, 0, Tile.FLAG),
            (1, 1, Tile.UNKNOWN)]) : Int) =
      ((2 * 2 : Nat) : Int) :=
  userBoard_counter_invariant (by decide)

/-- C2: for a game whose solution board was constructed with
`0 ≤ mineCount ≤ rowCount*colCount` and whose player board has matching
dimensions, a full backing array and truthful counters, `validate` returns
`true` iff the set of flagged player cells is exactly the set of solution
mine cells; and it returns `false` whenever the flag counter differs from
the requested mine count. -/
theorem validate_iff_flag_set_eq_mine_set {mines : Int} {R C : Nat} {g : Game}
    (hsol : SolutionConstructed mines R C g.mineBoard)
    (hm0 : 0 ≤ mines) (hmT : mines ≤ ((R * C : Nat) : Int))
    (huR : g.userBoard.board.rowCount = R) (huC : g.userBoard.board.colCount = C)
    (hInv : CounterInv g.userBoard) :
    (g.validate = true ↔
      ∀ q : Nat × Nat, q.1 < R → q.2 < C →
        (g.userBoard.getTile q.1 q.2 = Tile.FLAG ↔
          g.mineBoard.board.getTile q.1 q.2 = Tile.MINE)) ∧
    (g.userBoard.flagCount ≠ g.mineBoard.mineCount → g.validate = false) := by
  obtain ⟨hR, hC, hWFm, hmc, hcnt, _⟩ := solution_board_char hsol
  have hInv' := hInv
  unfold CounterInv at hInv'
  obtain ⟨hIf, _⟩ := hInv'
  have hsets : (∀ q : Nat × Nat, q.1 < R → q.2 < C →
      (g.userBoard.getTile q.1 q.2 = Tile.FLAG ↔
        g.mineBoard.board.getTile q.1 q.2 = Tile.MINE)) →
      g.userBoard.flagCount = g.mineBoard.mineCount := by
    intro hall
    have hfc : flagCells g.userBoard = mineCells g.mineBoard.board := by
      unfold flagCells mineCells
      rw [huR, huC, hR, hC]
      apply List.countP_congr
      intro p hp
      have hpr := mem_rowMajor.mp hp
      simp only [decide_eq_true_eq]
      exact hall p hpr.1 hpr.2
    rw [hIf, hfc, hcnt, hmc]
    have hmin : min mines.toNat (R * C) = mines.toNat := by omega
    rw [hmin]
    omega
  constructor
  · by_cases hfc : g.userBoard.flagCount ≠ g.mineBoard.mineCount
    · have hv : g.validate = false := by
        unfold Game.validate
        rw [if_pos hfc]
      rw [hv]
      constructor
      · intro h
        exact absurd h (by decide)
      · intro hall
        exact absurd (hsets hall) hfc
    · have hv : g.validate = (Board.forEachTile (fun _ : Unit => g.mineBoard.board)
          (fun _ r c mineTile =>
            if mineTile = Tile.MINE ∨ g.userBoard.getTile r c = Tile.FLAG then
              ((), JSVal.boolean (decide (mineTile = Tile.MINE ∧
                g.userBoard.getTile r c = Tile.FLAG)))
            else ((), JSVal.undef)) ()).2 := by
        unfold Game.validate
        rw [if_neg hfc]
      rw [hv]
      unfold Board.forEachTile
      dsimp only
      rw [hR, hC, forEachOn_unit_true_iff]
      constructor
      · intro hA q h1 h2
        exact (validate_cell g q.1 q.2).mp (hA q (mem_rowMajor.mpr ⟨h1, h2⟩))
      · intro hall p hp
        have hpr := mem_rowMajor.mp hp
        exact (validate_cell g p.1 p.2).mpr (hall p hpr.1 hpr.2)
  · intro hne
    unfold Game.validate
    rw [if_pos hne]

theorem validate_iff_flag_set_eq_mine_set_witness :
    (Game.validate (Game.mk (MineBoard.mk (Board.mk 2 2 [1, -1, 1, 1]) 1)
        (UserBoard.mk (Board.mk 2 2 [-2, -3, -2, -2]) 1 3)) = true ↔
      ∀ q : Nat × Nat, q.1 < 2 → q.2 < 2 →
        (UserBoard.getTile (UserBoard.mk (Board.mk 2 2 [-2, -3, -2, -2]) 1 3) q.1 q.2 =
            Tile.FLAG ↔
          Board.getTile (Board.mk 2 2 [1, -1, 1, 1]) q.1 q.2 = Tile.MINE)) ∧
    ((1 : Int) ≠ (1 : Int) →
      Game.validate (Game.mk (MineBoard.mk (Board.mk 2 2 [1, -1, 1, 1]) 1)
        (UserBoard.mk (Board.mk 2 2 [-2, -3, -2, -2]) 1 3)) = false) :=
  @validate_iff_flag_set_eq_mine_set 1 2 2
    (Game.mk (MineBoard.mk (Board.mk 2 2 [1, -1, 1, 1]) 1)
      (UserBoard.mk (Board.mk 2 2 [-2, -3, -2, -2]) 1 3))
    ⟨[0, -1, 0, 0], by decide, by decide⟩ (by decide) (by decide) rfl rfl
    ⟨by decide, by decide⟩

/-- C1: on a game whose solution board satisfies the adjacency invariant
and whose player board is entirely unrevealed, revealing a cell whose
solution value is `0` writes the solution value into exactly the maximal
connected zero region of that cell together with its one-cell bounding
ring — whose cells are non-zero and non-mine — and leaves every player
cell outside that set unchanged. -/
theorem revealTile_zero_floods_region_and_ring {R C : Nat} {g : Game} {row col : Nat}
    (hg : GoodGame g R C)
    (hadj : AdjacencyInv g.mineBoard.board)
    (hall : ∀ q ∈ rowMajor R C, Unrev g.userBoard.board q)
    (h1 : row < R) (h2 : col < C)
    (h0 : g.mineBoard.board.getTile row col = 0) :
    ∀ q : Nat × Nat, q.1 < R → q.2 < C →
      ((ZeroRegion g.mineBoard.board (row, col) q ∨
          ZeroRing g.mineBoard.board (row, col) q) →
        (g.revealTile row col).1.userBoard.board.getTile q.1 q.2 =
          g.mineBoard.board.getTile q.1 q.2) ∧
      (¬ (ZeroRegion g.mineBoard.board (row, col) q ∨
          ZeroRing g.mineBoard.board (row, col) q) →
        (g.revealTile row col).1.userBoard.board.getTile q.1 q.2 =
          g.userBoard.board.getTile q.1 q.2) ∧
      (ZeroRing g.mineBoard.board (row, col) q →
        g.mineBoard.board.getTile q.1 q.2 ≠ 0 ∧
          g.mineBoard.board.getTile q.1 q.2 ≠ Tile.MINE) := by
  have hall' : ∀ q : Nat × Nat, q.1 < R → q.2 < C → Unrev g.userBoard.board q :=
    fun q hq1 hq2 => hall q (mem_rowMajor.mpr ⟨hq1, hq2⟩)
  have hMR : g.mineBoard.board.rowCount = R := hg.1
  have hMC : g.mineBoard.board.colCount = C := hg.2.1
  have hRS := revealTile_char hg h1 h2
  unfold RevealSpec at hRS
  obtain ⟨hMf, hgf, hq⟩ := hRS
  have hiff : ∀ q : Nat × Nat,
      ReachU g.mineBoard.board g.userBoard.board R C (row, col) q ↔
        (ZeroRegion g.mineBoard.board (row, col) q ∨
          ZeroRing g.mineBoard.board (row, col) q) := by
    intro q
    have hx := ReachU_iff_regionRing (M := g.mineBoard.board) (u := g.userBoard.board)
      (p := (row, col))
      (fun z hz1 hz2 => hall' z (hMR ▸ hz1) (hMC ▸ hz2))
      (hMR.symm ▸ h1) (hMC.symm ▸ h2) h0 q
    rw [hMR, hMC] at hx
    exact hx
  intro q hq1 hq2
  refine ⟨?_, ?_, ?_⟩
  · intro hrr
    exact (hq q hq1 hq2).1 ((hiff q).mpr hrr)
  · intro hnr
    exact (hq q hq1 hq2).2 (fun hr => hnr ((hiff q).mp hr))
  · intro hring
    exact ZeroRing_nonzero_nonmine hadj (hMR.symm ▸ h1) (hMC.symm ▸ h2) hring

theorem revealTile_zero_floods_region_and_ring_witness :
    (0 : Nat) < 3 ∧
    ∀ q : Nat × Nat, q.1 < 3 → q.2 < 3 →
      ((ZeroRegion (Board.mk 3 3 [0, 0, 0, 0, 1, 1, 0, 1, -1]) (0, 0) q ∨
          ZeroRing (Board.mk 3 3 [0, 0, 0, 0, 1, 1, 0, 1, -1]) (0, 0) q) →
        (Game.revealTile (Game.mk (MineBoard.mk (Board.mk 3 3 [0, 0, 0, 0, 1, 1, 0, 1, -1]) 1)
            (UserBoard.mk (Board.mk 3 3 [-2, -2, -2, -2, -2, -2, -2, -2, -2]) 0 9))
          0 0).1.userBoard.board.getTile q.1 q.2 =
          (Board.mk 3 3 [0, 0, 0, 0, 1, 1, 0, 1, -1]).getTile q.1 q.2) ∧
      (¬ (ZeroRegion (Board.mk 3 3 [0, 0, 0, 0, 1, 1, 0, 1, -1]) (0, 0) q ∨
          ZeroRing (Board.mk 3 3 [0, 0, 0, 0, 1, 1, 0, 1, -1]) (0, 0) q) →
        (Game.revealTile (Game.mk (MineBoard.mk (Board.mk 3 3 [0, 0, 0, 0, 1, 1, 0, 1, -1]) 1)
            (UserBoard.mk (Board.mk 3 3 [-2, -2, -2, -2, -2, -2, -2, -2, -2]) 0 9))
          0 0).1.userBoard.board.getTile q.1 q.2 =
          (Board.mk 3 3 [-2, -2, -2, -2, -2, -2, -2, -2, -2]).getTile q.1 q.2) ∧
      (ZeroRing (Board.mk 3 3 [0, 0, 0, 0, 1, 1, 0, 1, -1]) (0, 0) q →
        (Board.mk 3 3 [0, 0, 0, 0, 1, 1, 0, 1, -1]).getTile q.1 q.2 ≠ 0 ∧
          (Board.mk 3 3 [0, 0, 0, 0, 1, 1, 0, 1, -1]).getTile q.1 q.2 ≠ Tile.MINE) :=
  ⟨by decide,
    @revealTile_zero_floods_region_and_ring 3 3
      (Game.mk (MineBoard.mk (Board.mk 3 3 [0, 0, 0, 0, 1, 1, 0, 1, -1]) 1)
        (UserBoard.mk (Board.mk 3 3 [-2, -2, -2, -2, -2, -2, -2, -2, -2]) 0 9)) 0 0
      ⟨rfl, rfl, rfl, rfl, rfl, rfl⟩
      ((@solution_board_char 1 3 3 (MineBoard.mk
        (Board.mk 3 3 [0, 0, 0, 0, 1, 1, 0, 1, -1]) 1)
        ⟨[0, 0, 0, 0, 0, 0, 0, 0, -1], by decide, by decide⟩).2.2.2.2.2)
      (by decide) (by decide) (by decide) (by decide)⟩

end Minesweeper
